import Mathlib

/-!
Verification development for the audiobook pipeline core: the chapter-aware
text chunker (`src/textchunk/chunker.py`, function `chunk_text`) and the audio
timeline assembler (`src/audio/stitch.py`, function `stitch_audio`).

Modelling conventions (shallow embedding):
* Python strings are modelled as `List Char`; `len` is `List.length` and the
  string methods used by the code (`strip`, `replace`, `split`) are modelled by
  executable functions below that follow the Python semantics.
* Python dicts keyed by `str(i)` for integer `i` are modelled as association
  lists keyed by the `Nat` `i`, in insertion order.
* `pydub.AudioSegment`s are modelled by their duration in milliseconds: an
  `append` with crossfade `f` yields duration `a + b - f` (truncated
  subtraction; pydub raises when `f` exceeds a segment, so theorems carry the
  corresponding side conditions), and Python's `max(x - 1000, 0)` on the
  millisecond cursor is exactly `Nat` truncated subtraction.
* The filesystem is modelled by the list of file names in the unit directory;
  `glob` is filtering plus lexicographic sorting, as in the code.
-/

/-- Python `str.strip()` on a `List Char` string: drop leading and trailing
whitespace.  Models `line.strip()` / `current_chunk.strip()` in
`chunker.py`. -/
def pyStrip (l : List Char) : List Char :=
  ((l.dropWhile Char.isWhitespace).reverse.dropWhile Char.isWhitespace).reverse

/-- Python `str.replace(a ++ b, x ++ y)` for a two-character pattern, replacing
non-overlapping occurrences left to right.  Models the calls
`line.replace('! ', '!|')`, `line.replace('? ', '?|')`, `line.replace('. ', '.|')`
in `chunker.py` (pattern `[a, b]`, replacement `[x, y]`). -/
def replace2 (a b x y : Char) : List Char → List Char
  | c1 :: c2 :: rest =>
    if c1 = a ∧ c2 = b then x :: y :: replace2 a b x y rest
    else c1 :: replace2 a b x y (c2 :: rest)
  | l => l

/-- The chained replacement
`line.replace('! ', '!|').replace('? ', '?|').replace('. ', '.|')` from
`chunker.py` line 22. -/
def replaceChain (l : List Char) : List Char :=
  replace2 '.' ' ' '.' '|' (replace2 '?' ' ' '?' '|' (replace2 '!' ' ' '!' '|' l))

/-- Python `str.split(sep)` for a single-character separator: splits at every
occurrence of `sep`, keeping empty fragments.  Models `.split('|')` and
`chapter_text.split('\n')` in `chunker.py`. -/
def splitChar (sep : Char) : List Char → List (List Char)
  | [] => [[]]
  | c :: rest =>
    if c = sep then [] :: splitChar sep rest
    else (splitChar sep rest).modifyHead (c :: ·)

/-- The sentence fragments of one line, as computed by `chunker.py` line 22:
`parts = line.replace('! ', '!|').replace('? ', '?|').replace('. ', '.|').split('|')`. -/
def sentenceParts (line : List Char) : List (List Char) :=
  splitChar '|' (replaceChain line)

/-- The sentences collected from one line by `chunker.py` lines 23-25:
non-empty parts, each stripped (`if part: sentences.append(part.strip())`). -/
def sentencesOfLine (line : List Char) : List (List Char) :=
  ((sentenceParts line).filter (· ≠ [])).map pyStrip

/-- The sentence list of a chapter, `chunker.py` lines 17-25: split the chapter
text on `'\n'`, strip each line, skip empty lines, and accumulate each line's
sentences in order. -/
def sentencesOfChapter (chapter : List Char) : List (List Char) :=
  (((splitChar '\n' chapter).map pyStrip).filter (· ≠ [])).flatMap sentencesOfLine

/-- One iteration of the greedy packing loop of `chunker.py` lines 29-36.
State: (closed chunks so far, current chunk string). -/
def packStep (maxSize : Nat) (st : List (List Char) × List Char) (s : List Char) :
    List (List Char) × List Char :=
  if st.2.length + s.length > maxSize ∧ st.2 ≠ [] then
    (st.1 ++ [pyStrip st.2], s)
  else
    (st.1, (if st.2 ≠ [] then st.2 ++ [' '] else st.2) ++ s)

/-- The greedy packing of a sentence list into chunks, `chunker.py`
lines 27-38, including the final flush of a non-empty current chunk. -/
def chunkSentences (maxSize : Nat) (ss : List (List Char)) : List (List Char) :=
  let r := ss.foldl (packStep maxSize) ([], [])
  if r.2 ≠ [] then r.1 ++ [pyStrip r.2] else r.1

/-- The chunk list of one chapter, `chunker.py` lines 16-38. -/
def chunkChapter (maxSize : Nat) (chapter : List Char) : List (List Char) :=
  chunkSentences maxSize (sentencesOfChapter chapter)

/-- The non-blank stripped input lines, `chunker.py` line 12:
`chapter_lines = [line.strip() for line in f if line.strip()]`. -/
def chapterLines (fileLines : List (List Char)) : List (List Char) :=
  (fileLines.map pyStrip).filter (· ≠ [])

/-- The chapter-indexed chunk map built by `chunker.py` lines 14-39:
`for idx, chapter_text in enumerate(chapter_lines, 1): ...;
chunks_by_chapter[str(idx)] = chapter_chunks` (keys modelled as `Nat`). -/
def chunksByChapter (maxSize : Nat) (fileLines : List (List Char)) :
    List (Nat × List (List Char)) :=
  (chapterLines fileLines).enum.map (fun p => (p.1 + 1, chunkChapter maxSize p.2))

/-- A chapter marker `{start_ms, end_ms}`; `end_ms` is optional because the
code creates a marker with only `start_ms` and fills `end_ms` later. -/
structure Marker where
  start_ms : Nat
  end_ms : Option Nat
deriving DecidableEq, Repr

/-- The persisted metadata document (`chunks.json`), spec section 6; every
field optional since the stages read-modify-write a JSON object. -/
structure ChunksDocument where
  title : Option (List Char)
  author : Option (List Char)
  chapter_count : Option Nat
  cover_file : Option (List Char)
  chunks : Option (List (Nat × List (List Char)))
  chapter_markers : Option (List (Nat × Marker))
deriving DecidableEq

/-- The document update performed by `chunker.py` lines 41-47: if the JSON
file exists, load it and set only the `chunks` key; otherwise create a fresh
document holding only `chunks`. -/
def chunk_text (existing : Option ChunksDocument) (fileLines : List (List Char))
    (maxSize : Nat) : ChunksDocument :=
  match existing with
  | some d => { d with chunks := some (chunksByChapter maxSize fileLines) }
  | none =>
    { title := none, author := none, chapter_count := none, cover_file := none,
      chunks := some (chunksByChapter maxSize fileLines), chapter_markers := none }

/-- The document update performed by `stitch.py` lines 104-109: re-read the
JSON document and set only the `chapter_markers` key. -/
def stitchWriteDoc (d : ChunksDocument) (markers : List (Nat × Marker)) :
    ChunksDocument :=
  { d with chapter_markers := some markers }

/-- Sentence splitting of one line as worded by the spec (section 4.1 step 2):
split at the boundary sequences `". "`, `"! "`, `"? "`; the punctuation mark
is retained at the end of the preceding fragment; the boundary's space is
consumed.  This is the spec-side reference definition for refinement claims;
the code-side definition is `sentenceParts` (replace-then-split). -/
def specSplit : List Char → List (List Char)
  | [] => [[]]
  | [c] => [[c]]
  | c :: d :: rest =>
    if (c = '!' ∨ c = '?' ∨ c = '.') ∧ d = ' ' then [c] :: specSplit rest
    else (specSplit (d :: rest)).modifyHead (c :: ·)

/-- The spec-side sentence sequence of a chapter (spec section 4.1 steps 1-2):
split on line breaks, strip lines, drop blank lines, split each line at
terminal punctuation followed by a space, drop empty fragments.  Fragments are
kept verbatim (the spec wording does not trim them). -/
def specSentences (chapter : List Char) : List (List Char) :=
  (((splitChar '\n' chapter).map pyStrip).filter (· ≠ [])).flatMap
    (fun line => (specSplit line).filter (· ≠ []))

/-- The spec-side sentence sequence with each fragment trimmed of surrounding
whitespace (the amended reference sequence for claim C1). -/
def specSentencesTrimmed (chapter : List Char) : List (List Char) :=
  (specSentences chapter).map pyStrip

/-- Claim C1 as stated: the chunk list of a chapter is, elementwise, the
single-space join of a partition of the chapter's sentence sequence
(no chunk contains a partial sentence, and concatenating the chunks while
dropping the single inter-sentence spacing reproduces the sequence). -/
def reproducesSentences (chapter : List Char) (maxSize : Nat)
    (sentences : List (List Char)) : Prop :=
  ∃ ps : List (List (List Char)),
    ps.flatten = sentences ∧ [] ∉ ps ∧
    chunkChapter maxSize chapter = ps.map (List.intercalate [' '])

/-- The Python string join used by the packing loop on one group of sentences:
`if current_chunk: current_chunk += " "; current_chunk += sentence` repeated. -/
def pyJoin (seg : List (List Char)) : List Char :=
  seg.foldl (fun cur s => (if cur ≠ [] then cur ++ [' '] else cur) ++ s) []

/-- One iteration of the greedy packing loop, tracked at the level of sentence
groups instead of joined strings (same branch condition as `packStep`, since
the current chunk string is exactly `pyJoin` of the current group). -/
def partStep (maxSize : Nat) (st : List (List (List Char)) × List (List Char))
    (s : List Char) : List (List (List Char)) × List (List Char) :=
  if (pyJoin st.2).length + s.length > maxSize ∧ pyJoin st.2 ≠ [] then
    (st.1 ++ [st.2], [s])
  else
    (st.1, st.2 ++ [s])

/-- The partition of the sentence list induced by the greedy packing loop:
each group is the list of sentences that went into one chunk. -/
def packPartition (maxSize : Nat) (ss : List (List Char)) :
    List (List (List Char)) :=
  let r := ss.foldl (partStep maxSize) ([], [])
  if pyJoin r.2 ≠ [] then r.1 ++ [r.2] else r.1

deriving instance DecidableEq for Except

/-- File names, like all Python strings, are lists of characters. -/
abbrev FileName := List Char

/-- Python `str(n)` for a natural number, with explicit fuel so that the
definition is structurally recursive (the fuel `n` always suffices since
`n / 10 < n` for `n ≥ 10`). -/
def toDecimalAux : Nat → Nat → List Char
  | 0, n => [Nat.digitChar n]
  | fuel + 1, n =>
    if n < 10 then [Nat.digitChar n]
    else toDecimalAux fuel (n / 10) ++ [Nat.digitChar (n % 10)]

/-- Python `str(n)`: decimal digits, no leading zeros. -/
def toDecimal (n : Nat) : List Char := toDecimalAux n n

/-- Python `f"{n:0wd}"`: the decimal form of `n` left-padded with `'0'` to at
least `w` characters. -/
def padNum (w n : Nat) : List Char :=
  List.replicate (w - (toDecimal n).length) '0' ++ toDecimal n

/-- The announcement file name `f"chapter_{chapter_num}.wav"` used by
`stitch.py` line 41. -/
def chapterFile (c : Nat) : FileName :=
  "chapter_".data ++ toDecimal c ++ ".wav".data

/-- The fixed part of the chunk glob `f"chunk_{chapter_num:02d}_*.wav"` used
by `stitch.py` line 47. -/
def chunkGlobPrefix (c : Nat) : FileName :=
  "chunk_".data ++ padNum 2 c ++ "_".data

/-- The canonical chunk file name `chunk_{chapter:02d}_{index:04d}.wav` of the
unit filename convention (spec section 6, produced by the renderer). -/
def chunkName (c i : Nat) : FileName :=
  chunkGlobPrefix c ++ padNum 4 i ++ ".wav".data

/-- Whether a file name matches the glob `chunk_{c:02d}_*.wav`: the fixed
prefix, the `.wav` suffix, and the `*` matching the (possibly empty) middle. -/
def matchesChunkGlob (c : Nat) (f : FileName) : Bool :=
  (chunkGlobPrefix c).isPrefixOf f && (".wav".data.isSuffixOf f) &&
    decide ((chunkGlobPrefix c).length + ".wav".data.length ≤ f.length)

/-- Python string `<=`: lexicographic comparison by code point. -/
def lexLe : List Char → List Char → Bool
  | [], _ => true
  | _ :: _, [] => false
  | a :: as, b :: bs => if a < b then true else if a = b then lexLe as bs else false

/-- The ordering proposition corresponding to `lexLe`. -/
def fileLe (a b : FileName) : Prop := lexLe a b = true

/-- Insert a file name into an already sorted list (helper for modelling
Python `sorted`). -/
def insertSorted (x : FileName) : List FileName → List FileName
  | [] => [x]
  | y :: t => if lexLe x y then x :: y :: t else y :: insertSorted x t

/-- Python `sorted` on file names: ascending lexicographic order. -/
def sortFiles (l : List FileName) : List FileName := l.foldr insertSorted []

/-- `sorted(glob.glob(.../f"chunk_{chapter_num:02d}_*.wav"))` from `stitch.py`
line 47: the directory entries matching the glob, sorted. -/
def globChunks (dir : List FileName) (c : Nat) : List FileName :=
  sortFiles (dir.filter (matchesChunkGlob c))

/-- The `"__PAUSE__"` sentinel used in the plan list by `stitch.py`. -/
def pauseMark : FileName := "__PAUSE__".data

/-- The trailing-pause stripping while-loop of `stitch.py` lines 50-51
(`while files_to_stitch and files_to_stitch[-1] == "__PAUSE__": pop()`),
with fuel for structural recursion; `popTrailing` supplies fuel `l.length`,
which always suffices since each pop shortens the list. -/
def popTrailingAux : Nat → List FileName → List FileName
  | 0, l => l
  | fuel + 1, l =>
    if l.getLast? = some pauseMark then popTrailingAux fuel l.dropLast else l

/-- Strip all trailing `"__PAUSE__"` markers, `stitch.py` lines 50-51. -/
def popTrailing (l : List FileName) : List FileName := popTrailingAux l.length l

/-- The ordered plan (`files_to_stitch`) built by `stitch.py` lines 31-51:
meta units that exist (no pauses), then per chapter `1..chapter_count` a
pause / announcement / pause block when the announcement exists followed by
the sorted chunk glob matches, then trailing pauses stripped.  Directory
entries are bare file names (all unit paths share the `input_dir` prefix,
which affects neither order nor the name comparisons). -/
def buildPlan (dir : List FileName) (count : Nat) : List FileName :=
  let metaFiles := ["title.wav".data, "author.wav".data, "chapter_count.wav".data].foldl
    (fun acc m => if m ∈ dir then acc ++ [m] else acc) []
  let allFiles := (List.range' 1 count).foldl
    (fun acc c =>
      (if chapterFile c ∈ dir then acc ++ [pauseMark, chapterFile c, pauseMark] else acc)
      ++ globChunks dir c) metaFiles
  popTrailing allFiles

/-- Python substring containment `pat in s`. -/
def isSubstr (pat : List Char) : List Char → Bool
  | [] => pat.isEmpty
  | c :: rest => pat.isPrefixOf (c :: rest) || isSubstr pat rest

/-- The mutable state of the stitching loop of `stitch.py` lines 56-95:
the duration of `combined`, the `current_ms` cursor, the current
`chapter_idx`, and the `chapter_markers` insertion-ordered dict. -/
structure StitchSt where
  combined : Nat
  current_ms : Nat
  chapter_idx : Nat
  markers : List (Nat × Marker)
deriving DecidableEq, Repr

/-- `chapter_markers[str(k)]["end_ms"] = v`: update the entry keyed `k`. -/
def setEnd (ms : List (Nat × Marker)) (k v : Nat) : List (Nat × Marker) :=
  ms.map (fun e => if e.1 = k then (e.1, { e.2 with end_ms := some v }) else e)

/-- `str(k) in chapter_markers`. -/
def hasKey (ms : List (Nat × Marker)) (k : Nat) : Bool :=
  ms.any (fun e => e.1 = k)

/-- One iteration of the loop of `stitch.py` lines 78-95 on item `f` at
enumeration index `i` (`planLen` is `len(files_to_stitch)`): the
next-chapter-announcement transition, the pause/crossfade append (durations:
`append` with crossfade `fd` yields `a + b - fd`), the cursor update, and the
last-file marker close. -/
def stitchStep (dur : FileName → Nat) (fade planLen : Nat) (st : StitchSt)
    (i : Nat) (f : FileName) : StitchSt :=
  let st1 :=
    if isSubstr (chapterFile (st.chapter_idx + 1)) f then
      { st with
        markers := setEnd st.markers st.chapter_idx (st.current_ms - 1000) ++
          [(st.chapter_idx + 1, { start_ms := st.current_ms - 1000, end_ms := none })],
        chapter_idx := st.chapter_idx + 1 }
    else st
  let st2 :=
    if f = pauseMark then { st1 with combined := st1.combined + 1000 }
    else { st1 with combined := st1.combined + dur f - fade }
  let st3 := { st2 with current_ms := st2.combined }
  if i + 2 = planLen ∧ hasKey st3.markers st3.chapter_idx then
    { st3 with markers := setEnd st3.markers st3.chapter_idx st3.current_ms }
  else st3

/-- `for idx, wav_file in enumerate(files_to_stitch[start_idx:])`,
`stitch.py` line 78, with the enumeration index threaded explicitly. -/
def stitchLoop (dur : FileName → Nat) (fade planLen : Nat) :
    Nat → List FileName → StitchSt → StitchSt
  | _, [], st => st
  | i, f :: rest, st =>
    stitchLoop dur fade planLen (i + 1) rest (stitchStep dur fade planLen st i f)

/-- The state before the loop, `stitch.py` lines 56-75: the first plan item
becomes `combined` (a pause or the first waveform), `current_ms = 0`,
`chapter_idx` is `1` if `"chapter_1.wav"` occurs in the first item else `0`,
and that chapter's marker is opened at `0`. -/
def stitchInit (dur : FileName → Nat) (f : FileName) : StitchSt :=
  let cidx0 := if isSubstr (chapterFile 1) f then 1 else 0
  { combined := if f = pauseMark then 1000 else dur f,
    current_ms := 0,
    chapter_idx := cidx0,
    markers := [(cidx0, { start_ms := 0, end_ms := none })] }

/-- The final loop state for the non-empty plan `f :: rest`. -/
def stitchFinal (dur : FileName → Nat) (fade : Nat) (f : FileName)
    (rest : List FileName) : StitchSt :=
  stitchLoop dur fade (rest.length + 1) 0 rest (stitchInit dur f)

/-- The whole of `stitch_audio` (`stitch.py` lines 6-111) over the model:
directory contents `dir`, `chapter_count` from the metadata document, unit
durations `dur`, crossfade `fade`.  An empty plan raises
`ValueError(f"No audio files found to stitch in {input_dir}")` before any
output is produced; otherwise the result is the plan, the chapter markers,
and the duration of the exported waveform. -/
def stitch_audio (input_dir : List Char) (dir : List FileName) (count : Nat)
    (dur : FileName → Nat) (fade : Nat) :
    Except (List Char) (List FileName × List (Nat × Marker) × Nat) :=
  match buildPlan dir count with
  | [] => .error ("No audio files found to stitch in ".data ++ input_dir)
  | f :: rest =>
    let st := stitchFinal dur fade f rest
    .ok (f :: rest, st.markers, st.combined)

/-- Adjacency of two recorded chapter markers: consecutive chapter indices
and the earlier chapter's `end_ms` equal to the later one's `start_ms`. -/
def markerAdj (a b : Nat × Marker) : Prop :=
  b.1 = a.1 + 1 ∧ a.2.end_ms = some b.2.start_ms

/-- The chapter-marker coverage property of a final loop state: markers are
contiguous and non-overlapping (consecutive keys, each recorded `end_ms`
equal to the next marker's `start_ms`), every recorded `end_ms` is at least
its marker's `start_ms`, and the marker still open when the last plan item
was appended has been closed with the total output duration. -/
def markersClosed (st : StitchSt) : Prop :=
  List.Chain' markerAdj st.markers
  ∧ (∀ e ∈ st.markers, ∀ v, e.2.end_ms = some v → e.2.start_ms ≤ v)
  ∧ (∀ e, st.markers.getLast? = some e → e.2.end_ms = some st.combined)
  ∧ st.markers ≠ []

/-- Claim C5's chapter-marker coverage property for the non-empty plan
`f :: rest`. -/
def markerCoverage (dur : FileName → Nat) (fade : Nat) (f : FileName)
    (rest : List FileName) : Prop :=
  markersClosed (stitchFinal dur fade f rest)

/-- The loop invariant of the marker bookkeeping: the marker dict is a list
of closed markers followed by the one open marker, whose key is the current
chapter index and exceeds all earlier keys; markers chain contiguously; every
recorded `end_ms` dominates its `start_ms`; the open marker's `start_ms` is
at most `current_ms - 1000` (clamped at 0); and the cursor never exceeds the
length of `combined`. -/
def stitchInv (st : StitchSt) : Prop :=
  ∃ closed op, st.markers = closed ++ [op] ∧
    st.chapter_idx = op.1 ∧
    (∀ e ∈ closed, e.1 < op.1) ∧
    List.Chain' markerAdj (closed ++ [op]) ∧
    (∀ e ∈ closed ++ [op], ∀ v, e.2.end_ms = some v → e.2.start_ms ≤ v) ∧
    op.2.start_ms ≤ st.current_ms - 1000 ∧
    st.current_ms ≤ st.combined

/-! ### Basic facts about `pyStrip` -/

theorem pyStrip_eq_nil_iff (l : List Char) :
    pyStrip l = [] ↔ ∀ c ∈ l, c.isWhitespace := by
  unfold pyStrip
  rw [List.reverse_eq_nil_iff, List.dropWhile_eq_nil_iff]
  constructor
  · intro h c hc
    rw [← List.takeWhile_append_dropWhile Char.isWhitespace l,
      List.mem_append] at hc
    rcases hc with h1 | h2
    · exact List.mem_takeWhile_imp h1
    · exact h c (by simpa using h2)
  · intro h c hc
    exact h c ((List.dropWhile_sublist _).subset (by simpa using hc))

theorem mem_pyStrip {c : Char} {l : List Char} (h : c ∈ pyStrip l) : c ∈ l := by
  unfold pyStrip at h
  rw [List.mem_reverse] at h
  have h2 := (List.dropWhile_sublist Char.isWhitespace).subset h
  rw [List.mem_reverse] at h2
  exact (List.dropWhile_sublist Char.isWhitespace).subset h2

theorem head_dropWhile_not {p : Char → Bool} {l : List Char} {c : Char}
    (h : (l.dropWhile p).head? = some c) : p c = false := by
  induction l with
  | nil => simp at h
  | cons a t ih =>
    rw [List.dropWhile_cons] at h
    by_cases hp : p a = true
    · simp [hp] at h; exact ih h
    · simp [hp] at h
      simp [← h, Bool.eq_false_iff, hp]

theorem getLast?_dropWhile {p : Char → Bool} {l : List Char}
    (h : l.dropWhile p ≠ []) : (l.dropWhile p).getLast? = l.getLast? := by
  obtain ⟨pre, hpre⟩ :=
    (List.dropWhile_suffix p : List.dropWhile p l <:+ l)
  conv_rhs => rw [← hpre]
  rw [List.getLast?_append]
  obtain ⟨x, hx⟩ := Option.isSome_iff_exists.mp (List.getLast?_isSome.mpr h)
  rw [hx]
  rfl

theorem pyStrip_head_not_ws {l : List Char} {c : Char}
    (h : (pyStrip l).head? = some c) : c.isWhitespace = false := by
  unfold pyStrip at h
  rw [List.head?_reverse] at h
  have hne : (l.dropWhile Char.isWhitespace).reverse.dropWhile Char.isWhitespace ≠ [] := by
    intro hnil; rw [hnil] at h; simp at h
  rw [getLast?_dropWhile hne, List.getLast?_reverse] at h
  exact head_dropWhile_not h

theorem pyStrip_getLast_not_ws {l : List Char} {c : Char}
    (h : (pyStrip l).getLast? = some c) : c.isWhitespace = false := by
  unfold pyStrip at h
  rw [List.getLast?_reverse] at h
  exact head_dropWhile_not h

theorem dropWhile_eq_self_of_head {p : Char → Bool} {l : List Char}
    (h : ∀ c, l.head? = some c → p c = false) : l.dropWhile p = l := by
  cases l with
  | nil => rfl
  | cons a t =>
    rw [List.dropWhile_cons]
    simp [h a rfl]

theorem pyStrip_eq_self_of {l : List Char}
    (h1 : ∀ c, l.head? = some c → c.isWhitespace = false)
    (h2 : ∀ c, l.getLast? = some c → c.isWhitespace = false) : pyStrip l = l := by
  unfold pyStrip
  rw [dropWhile_eq_self_of_head h1]
  rw [dropWhile_eq_self_of_head (by intro c hc; rw [List.head?_reverse] at hc; exact h2 c hc)]
  exact List.reverse_reverse l

theorem pyStrip_idem (l : List Char) : pyStrip (pyStrip l) = pyStrip l :=
  pyStrip_eq_self_of (fun _ h => pyStrip_head_not_ws h) (fun _ h => pyStrip_getLast_not_ws h)

theorem pyStrip_ne_nil_of_mem {l : List Char} {c : Char} (hc : c ∈ l)
    (hws : c.isWhitespace = false) : pyStrip l ≠ [] := by
  intro h
  rw [pyStrip_eq_nil_iff] at h
  simp [h c hc] at hws

/-! ### The replace-then-split sentence splitter versus the spec's splitter -/

theorem replace2_nil (a b x y : Char) : replace2 a b x y [] = [] := rfl

theorem replace2_single (a b x y c : Char) : replace2 a b x y [c] = [c] := rfl

theorem replace2_cons_match (a b x y : Char) (l : List Char) :
    replace2 a b x y (a :: b :: l) = x :: y :: replace2 a b x y l := by
  simp [replace2]

theorem replace2_cons_of_ne (a b x y c : Char) (l : List Char)
    (h : ¬(c = a ∧ l.head? = some b)) :
    replace2 a b x y (c :: l) = c :: replace2 a b x y l := by
  cases l with
  | nil => rfl
  | cons d t =>
    have hne : ¬(c = a ∧ d = b) := by
      intro ⟨h1, h2⟩; exact h ⟨h1, by rw [h2]; rfl⟩
    simp [replace2, hne]

theorem replace2_head? (a b y : Char) (l : List Char) :
    (replace2 a b a y l).head? = l.head? := by
  cases l with
  | nil => rfl
  | cons c t =>
    cases t with
    | nil => rfl
    | cons d t2 =>
      by_cases h : c = a ∧ d = b
      · rw [h.1, h.2, replace2_cons_match]
        rw [← h.1]
        rfl
      · rw [replace2_cons_of_ne a b a y c (d :: t2)
          (by intro ⟨h1, h2⟩; simp at h2; exact h ⟨h1, h2⟩)]
        rfl

theorem replaceChain_nil : replaceChain [] = [] := rfl

theorem replaceChain_single (c : Char) : replaceChain [c] = [c] := rfl

theorem replaceChain_boundary {c : Char} (h : c = '!' ∨ c = '?' ∨ c = '.')
    (rest : List Char) :
    replaceChain (c :: ' ' :: rest) = c :: '|' :: replaceChain rest := by
  rcases h with h | h | h <;> subst h <;> unfold replaceChain
  · rw [replace2_cons_match '!' ' ' '!' '|' rest]
    rw [replace2_cons_of_ne '?' ' ' '?' '|' '!'
      ('|' :: replace2 '!' ' ' '!' '|' rest) (by simp)]
    rw [replace2_cons_of_ne '?' ' ' '?' '|' '|'
      (replace2 '!' ' ' '!' '|' rest) (by simp)]
    rw [replace2_cons_of_ne '.' ' ' '.' '|' '!'
      ('|' :: replace2 '?' ' ' '?' '|' (replace2 '!' ' ' '!' '|' rest)) (by simp)]
    rw [replace2_cons_of_ne '.' ' ' '.' '|' '|'
      (replace2 '?' ' ' '?' '|' (replace2 '!' ' ' '!' '|' rest)) (by simp)]
  · rw [replace2_cons_of_ne '!' ' ' '!' '|' '?' (' ' :: rest) (by simp)]
    rw [replace2_cons_of_ne '!' ' ' '!' '|' ' ' rest (by simp)]
    rw [replace2_cons_match '?' ' ' '?' '|' (replace2 '!' ' ' '!' '|' rest)]
    rw [replace2_cons_of_ne '.' ' ' '.' '|' '?'
      ('|' :: replace2 '?' ' ' '?' '|' (replace2 '!' ' ' '!' '|' rest)) (by simp)]
    rw [replace2_cons_of_ne '.' ' ' '.' '|' '|'
      (replace2 '?' ' ' '?' '|' (replace2 '!' ' ' '!' '|' rest)) (by simp)]
  · rw [replace2_cons_of_ne '!' ' ' '!' '|' '.' (' ' :: rest) (by simp)]
    rw [replace2_cons_of_ne '!' ' ' '!' '|' ' ' rest (by simp)]
    rw [replace2_cons_of_ne '?' ' ' '?' '|' '.'
      (' ' :: replace2 '!' ' ' '!' '|' rest) (by simp)]
    rw [replace2_cons_of_ne '?' ' ' '?' '|' ' '
      (replace2 '!' ' ' '!' '|' rest) (by simp)]
    rw [replace2_cons_match '.' ' ' '.' '|'
      (replace2 '?' ' ' '?' '|' (replace2 '!' ' ' '!' '|' rest))]

theorem replaceChain_step {c : Char} {l : List Char}
    (h : ¬((c = '!' ∨ c = '?' ∨ c = '.') ∧ l.head? = some ' ')) :
    replaceChain (c :: l) = c :: replaceChain l := by
  unfold replaceChain
  rw [replace2_cons_of_ne '!' ' ' '!' '|' c l
    (by intro ⟨h1, h2⟩; exact h ⟨Or.inl h1, h2⟩)]
  rw [replace2_cons_of_ne '?' ' ' '?' '|' c (replace2 '!' ' ' '!' '|' l)
    (by intro ⟨h1, h2⟩; rw [replace2_head?] at h2; exact h ⟨Or.inr (Or.inl h1), h2⟩)]
  rw [replace2_cons_of_ne '.' ' ' '.' '|' c
    (replace2 '?' ' ' '?' '|' (replace2 '!' ' ' '!' '|' l))
    (by intro ⟨h1, h2⟩; rw [replace2_head?, replace2_head?] at h2
        exact h ⟨Or.inr (Or.inr h1), h2⟩)]

theorem splitChar_cons_sep (sep : Char) (rest : List Char) :
    splitChar sep (sep :: rest) = [] :: splitChar sep rest := by
  simp [splitChar]

theorem splitChar_cons_ne {sep c : Char} (h : c ≠ sep) (rest : List Char) :
    splitChar sep (c :: rest) = (splitChar sep rest).modifyHead (c :: ·) := by
  simp [splitChar, h]

theorem splitChar_ne_nil (sep : Char) (l : List Char) : splitChar sep l ≠ [] := by
  cases l with
  | nil => simp [splitChar]
  | cons c rest =>
    by_cases h : c = sep
    · subst h; rw [splitChar_cons_sep]; simp
    · rw [splitChar_cons_ne h]
      intro hnil
      exact splitChar_ne_nil sep rest (by simpa using congrArg List.length hnil)

theorem specSplit_ne_nil (l : List Char) : specSplit l ≠ [] := by
  match l with
  | [] => simp [specSplit]
  | [c] => simp [specSplit]
  | c :: d :: rest =>
    by_cases h : (c = '!' ∨ c = '?' ∨ c = '.') ∧ d = ' '
    · simp [specSplit, h]
    · simp only [specSplit, if_neg h]
      intro hnil
      exact specSplit_ne_nil (d :: rest) (by simpa using congrArg List.length hnil)

theorem specSplit_boundary {c : Char} (h : c = '!' ∨ c = '?' ∨ c = '.')
    (rest : List Char) : specSplit (c :: ' ' :: rest) = [c] :: specSplit rest := by
  simp [specSplit, h]

theorem specSplit_step {c d : Char} {rest : List Char}
    (h : ¬((c = '!' ∨ c = '?' ∨ c = '.') ∧ d = ' ')) :
    specSplit (c :: d :: rest) = (specSplit (d :: rest)).modifyHead (c :: ·) := by
  simp [specSplit, h]

theorem specSplit_single (c : Char) : specSplit [c] = [[c]] := by
  simp [specSplit]

theorem sentenceParts_eq_specSplit_aux :
    ∀ n l, l.length ≤ n → '|' ∉ l → sentenceParts l = specSplit l := by
  intro n
  induction n with
  | zero =>
    intro l hl _
    have : l = [] := List.length_eq_zero.mp (Nat.le_zero.mp hl)
    subst this; rfl
  | succ n ih =>
    intro l hl hp
    match l with
    | [] => rfl
    | [c] =>
      have hc : c ≠ '|' := by intro h; exact hp (by simp [h])
      unfold sentenceParts
      rw [replaceChain_single, splitChar_cons_ne hc, specSplit_single]
      rfl
    | c :: d :: rest =>
      have hc : c ≠ '|' := by intro h; exact hp (by simp [h])
      have hrest : '|' ∉ rest := by intro h; exact hp (by simp [h])
      have hdrest : '|' ∉ d :: rest := by
        intro h; rw [List.mem_cons] at h
        rcases h with h | h
        · exact hp (by simp [← h])
        · exact hrest h
      by_cases hb : (c = '!' ∨ c = '?' ∨ c = '.') ∧ d = ' '
      · obtain ⟨hb1, hb2⟩ := hb
        subst hb2
        rw [specSplit_boundary hb1]
        unfold sentenceParts
        rw [replaceChain_boundary hb1, splitChar_cons_ne hc, splitChar_cons_sep]
        have := ih rest (by simp at hl; omega) hrest
        unfold sentenceParts at this
        rw [this]
        rfl
      · rw [specSplit_step hb]
        unfold sentenceParts
        rw [replaceChain_step (by intro ⟨h1, h2⟩; simp at h2; exact hb ⟨h1, h2⟩),
          splitChar_cons_ne hc]
        have := ih (d :: rest) (by simpa using hl) hdrest
        unfold sentenceParts at this
        rw [this]

theorem sentenceParts_eq_specSplit {l : List Char} (h : '|' ∉ l) :
    sentenceParts l = specSplit l :=
  sentenceParts_eq_specSplit_aux l.length l (Nat.le_refl _) h

/-! ### Non-emptiness of stripped sentence fragments -/

theorem punct_not_ws {c : Char} (h : c = '!' ∨ c = '?' ∨ c = '.') :
    c.isWhitespace = false := by
  rcases h with h | h | h <;> subst h <;> decide

theorem specSplit_head_ne_nil :
    ∀ {l q : List Char}, l ≠ [] → (specSplit l).head? = some q → q ≠ [] := by
  intro l q hl hq
  match l with
  | [c] => rw [specSplit_single] at hq; simp at hq; simp [← hq]
  | c :: d :: rest =>
    by_cases hb : (c = '!' ∨ c = '?' ∨ c = '.') ∧ d = ' '
    · obtain ⟨hb1, hb2⟩ := hb
      subst hb2
      rw [specSplit_boundary hb1] at hq
      simp at hq
      simp [← hq]
    · rw [specSplit_step hb] at hq
      obtain ⟨q0, qs, hcons⟩ := List.exists_cons_of_ne_nil (specSplit_ne_nil (d :: rest))
      rw [hcons] at hq
      simp at hq
      simp [← hq]

theorem exists_not_ws_of_pyStrip_ne {q : List Char} (h : pyStrip q ≠ []) :
    ∃ c ∈ q, c.isWhitespace = false := by
  by_contra hcon
  push_neg at hcon
  exact h (by
    rw [pyStrip_eq_nil_iff]
    intro c hc
    have := hcon c hc
    simpa using this)

theorem specSplit_strip_ne_aux :
    ∀ n l, l.length ≤ n →
      (∀ c, l.getLast? = some c → c.isWhitespace = false) →
      ∀ p ∈ specSplit l, p ≠ [] → pyStrip p ≠ [] := by
  intro n
  induction n with
  | zero =>
    intro l hl _ p hp hpne
    have : l = [] := List.length_eq_zero.mp (Nat.le_zero.mp hl)
    subst this
    simp [specSplit] at hp
    exact absurd hp hpne
  | succ n ih =>
    intro l hl hlast p hp hpne
    match l with
    | [] =>
      simp [specSplit] at hp
      exact absurd hp hpne
    | [c] =>
      rw [specSplit_single] at hp
      simp at hp
      subst hp
      exact pyStrip_ne_nil_of_mem (List.mem_singleton_self c) (hlast c rfl)
    | c :: d :: rest =>
      by_cases hb : (c = '!' ∨ c = '?' ∨ c = '.') ∧ d = ' '
      · obtain ⟨hb1, hb2⟩ := hb
        subst hb2
        rw [specSplit_boundary hb1] at hp
        rcases List.mem_cons.mp hp with h | h
        · subst h
          exact pyStrip_ne_nil_of_mem (List.mem_singleton_self c) (punct_not_ws hb1)
        · cases rest with
          | nil =>
            simp [specSplit] at h
            exact absurd h hpne
          | cons e t =>
            refine ih (e :: t) (by simp at hl ⊢; omega) ?_ p h hpne
            intro c2 hc2
            exact hlast c2 (by rw [List.getLast?_cons_cons, List.getLast?_cons_cons]; exact hc2)
      · rw [specSplit_step hb] at hp
        obtain ⟨q0, qs, hcons⟩ := List.exists_cons_of_ne_nil (specSplit_ne_nil (d :: rest))
        rw [hcons] at hp
        simp at hp
        have hlast2 : ∀ c2, (d :: rest).getLast? = some c2 → c2.isWhitespace = false := by
          intro c2 hc2
          exact hlast c2 (by rw [List.getLast?_cons_cons]; exact hc2)
        have hlen : (d :: rest).length ≤ n := by simp at hl ⊢; omega
        have hq0mem : q0 ∈ specSplit (d :: rest) := by
          rw [hcons]; exact List.mem_cons_self _ _
        rcases hp with h | h
        · subst h
          have hq0 : q0 ≠ [] :=
            specSplit_head_ne_nil (List.cons_ne_nil d rest) (by rw [hcons]; rfl)
          have hq0strip : pyStrip q0 ≠ [] :=
            ih (d :: rest) hlen hlast2 q0 hq0mem hq0
          obtain ⟨ch, hch, hchws⟩ := exists_not_ws_of_pyStrip_ne hq0strip
          exact pyStrip_ne_nil_of_mem (List.mem_cons_of_mem c hch) hchws
        · have hpmem : p ∈ specSplit (d :: rest) := by
            rw [hcons]; exact List.mem_cons_of_mem _ h
          exact ih (d :: rest) hlen hlast2 p hpmem hpne

theorem specSplit_strip_ne {l : List Char}
    (hlast : ∀ c, l.getLast? = some c → c.isWhitespace = false) :
    ∀ p ∈ specSplit l, p ≠ [] → pyStrip p ≠ [] :=
  specSplit_strip_ne_aux l.length l (Nat.le_refl _) hlast

/-! ### The Python space-join of a group of sentences -/

theorem pyJoin_nil : pyJoin [] = [] := rfl

theorem pyJoin_foldl_of_ne :
    ∀ (g : List (List Char)) (cur : List Char), cur ≠ [] →
      g.foldl (fun cur s => (if cur ≠ [] then cur ++ [' '] else cur) ++ s) cur =
        cur ++ g.flatMap (fun t => ' ' :: t) := by
  intro g
  induction g with
  | nil => intro cur _; simp
  | cons s g' ih =>
    intro cur hcur
    rw [List.foldl_cons]
    have hstep : (if cur ≠ [] then cur ++ [' '] else cur) ++ s = cur ++ (' ' :: s) := by
      simp [hcur]
    rw [hstep, ih _ (by simp [hcur])]
    simp

theorem pyJoin_cons_of_ne {s : List Char} (hs : s ≠ []) (g : List (List Char)) :
    pyJoin (s :: g) = s ++ g.flatMap (fun t => ' ' :: t) := by
  unfold pyJoin
  rw [List.foldl_cons]
  have : (if ([] : List Char) ≠ [] then [] ++ [' '] else []) ++ s = s := by simp
  rw [this]
  exact pyJoin_foldl_of_ne g s hs

theorem pyJoin_append_single (g : List (List Char)) (s : List Char) :
    pyJoin (g ++ [s]) =
      (if pyJoin g ≠ [] then pyJoin g ++ [' '] else pyJoin g) ++ s := by
  unfold pyJoin
  rw [List.foldl_append]
  rfl

theorem pyJoin_ne_nil_of_mem :
    ∀ {g : List (List Char)} {s : List Char}, s ∈ g → s ≠ [] → pyJoin g ≠ [] := by
  intro g
  induction g using List.reverseRecOn with
  | nil => intro s hs; simp at hs
  | append_singleton g' t ih =>
    intro s hs hsne
    rw [pyJoin_append_single]
    rcases List.mem_append.mp hs with h | h
    · have := ih h hsne
      simp [this]
    · simp at h
      subst h
      simp [hsne]

theorem pyJoin_eq_nil_forall {g : List (List Char)} (h : pyJoin g = []) :
    ∀ s ∈ g, s = [] := by
  intro s hs
  by_contra hne
  exact pyJoin_ne_nil_of_mem hs hne h

theorem intercalate_space (s : List Char) (g : List (List Char)) :
    List.intercalate [' '] (s :: g) = s ++ g.flatMap (fun t => ' ' :: t) := by
  induction g generalizing s with
  | nil => simp [List.intercalate]
  | cons t g' ih =>
    unfold List.intercalate at *
    rw [List.intersperse_cons_cons]
    simp only [List.flatten_cons]
    rw [ih t]
    simp

theorem pyJoin_eq_intercalate {g : List (List Char)} (hg : g ≠ [])
    (h : ∀ s ∈ g, s ≠ []) : pyJoin g = List.intercalate [' '] g := by
  cases g with
  | nil => exact absurd rfl hg
  | cons s g' =>
    rw [pyJoin_cons_of_ne (h s (by simp)) g', intercalate_space]

theorem pyStrip_pyJoin {g : List (List Char)} (hg : g ≠ [])
    (hne : ∀ s ∈ g, s ≠ []) (hstr : ∀ s ∈ g, pyStrip s = s) :
    pyStrip (pyJoin g) = pyJoin g := by
  apply pyStrip_eq_self_of
  · intro c hc
    cases g with
    | nil => exact absurd rfl hg
    | cons s g' =>
      rw [pyJoin_cons_of_ne (hne s (by simp)) g', List.head?_append] at hc
      obtain ⟨c0, hc0⟩ := Option.isSome_iff_exists.mp
        ((List.head?_isSome : s.head?.isSome = true ↔ s ≠ []).mpr (hne s (by simp)))
      rw [hc0] at hc
      simp at hc
      subst hc
      apply @pyStrip_head_not_ws s
      rw [hstr s (by simp)]
      exact hc0
  · intro c hc
    rcases List.eq_nil_or_concat g with h | ⟨g', t, hgt⟩
    · exact absurd h hg
    · rw [List.concat_eq_append] at hgt
      subst hgt
      rw [pyJoin_append_single, List.getLast?_append] at hc
      have htne : t ≠ [] := hne t (by simp)
      obtain ⟨c0, hc0⟩ := Option.isSome_iff_exists.mp (List.getLast?_isSome.mpr htne)
      rw [hc0] at hc
      simp at hc
      subst hc
      apply @pyStrip_getLast_not_ws t
      rw [hstr t (by simp)]
      exact hc0

/-! ### The greedy packing loop and its induced partition -/

theorem packStep_eq_partStep (maxSize : Nat)
    (done : List (List (List Char))) (seg : List (List Char)) (s : List Char) :
    packStep maxSize (done.map (fun g => pyStrip (pyJoin g)), pyJoin seg) s =
      ((partStep maxSize (done, seg) s).1.map (fun g => pyStrip (pyJoin g)),
        pyJoin (partStep maxSize (done, seg) s).2) := by
  unfold packStep partStep
  by_cases h : (pyJoin seg).length + s.length > maxSize ∧ pyJoin seg ≠ []
  · simp only [if_pos h]
    rw [List.map_append]
    rfl
  · simp only [if_neg h]
    rw [pyJoin_append_single]

theorem foldl_pack_eq_part (maxSize : Nat) :
    ∀ (ss : List (List Char)) (done : List (List (List Char)))
      (seg : List (List Char)),
      ss.foldl (packStep maxSize) (done.map (fun g => pyStrip (pyJoin g)), pyJoin seg) =
        ((ss.foldl (partStep maxSize) (done, seg)).1.map (fun g => pyStrip (pyJoin g)),
          pyJoin (ss.foldl (partStep maxSize) (done, seg)).2) := by
  intro ss
  induction ss with
  | nil => intro done seg; rfl
  | cons s ss' ih =>
    intro done seg
    rw [List.foldl_cons, List.foldl_cons, packStep_eq_partStep]
    exact ih (partStep maxSize (done, seg) s).1 (partStep maxSize (done, seg) s).2

theorem chunkSentences_eq_partition (maxSize : Nat) (ss : List (List Char)) :
    chunkSentences maxSize ss =
      (packPartition maxSize ss).map (fun g => pyStrip (pyJoin g)) := by
  unfold chunkSentences packPartition
  have h := foldl_pack_eq_part maxSize ss [] []
  simp only [List.map_nil] at h
  have hj : pyJoin ([] : List (List Char)) = [] := rfl
  rw [hj] at h
  rw [h]
  by_cases hne : pyJoin (ss.foldl (partStep maxSize) ([], [])).2 ≠ []
  · simp only [if_pos hne]
    rw [List.map_append]
    rfl
  · simp only [if_neg hne]

theorem foldl_part_flatten (maxSize : Nat) :
    ∀ (ss : List (List Char)) (done : List (List (List Char)))
      (seg : List (List Char)),
      (ss.foldl (partStep maxSize) (done, seg)).1.flatten ++
          (ss.foldl (partStep maxSize) (done, seg)).2 =
        done.flatten ++ seg ++ ss := by
  intro ss
  induction ss with
  | nil => intro done seg; simp
  | cons s ss' ih =>
    intro done seg
    rw [List.foldl_cons]
    by_cases h : (pyJoin seg).length + s.length > maxSize ∧ pyJoin seg ≠ []
    · rw [show partStep maxSize (done, seg) s = (done ++ [seg], [s]) from by
        unfold partStep; simp only [if_pos h]]
      rw [ih]
      simp
    · rw [show partStep maxSize (done, seg) s = (done, seg ++ [s]) from by
        unfold partStep; simp only [if_neg h]]
      rw [ih]
      simp

theorem foldl_part_groups_ne (maxSize : Nat) :
    ∀ (ss : List (List Char)) (done : List (List (List Char)))
      (seg : List (List Char)),
      (∀ g ∈ done, pyJoin g ≠ []) →
      ∀ g ∈ (ss.foldl (partStep maxSize) (done, seg)).1, pyJoin g ≠ [] := by
  intro ss
  induction ss with
  | nil => intro done seg h; exact h
  | cons s ss' ih =>
    intro done seg h
    rw [List.foldl_cons]
    by_cases hc : (pyJoin seg).length + s.length > maxSize ∧ pyJoin seg ≠ []
    · rw [show partStep maxSize (done, seg) s = (done ++ [seg], [s]) from by
        unfold partStep; simp only [if_pos hc]]
      refine ih _ _ ?_
      intro g hg
      rcases List.mem_append.mp hg with hg | hg
      · exact h g hg
      · simp at hg; subst hg; exact hc.2
    · rw [show partStep maxSize (done, seg) s = (done, seg ++ [s]) from by
        unfold partStep; simp only [if_neg hc]]
      exact ih _ _ h

theorem packPartition_groups_ne (maxSize : Nat) (ss : List (List Char)) :
    ∀ g ∈ packPartition maxSize ss, pyJoin g ≠ [] := by
  unfold packPartition
  intro g hg
  by_cases hne : pyJoin (ss.foldl (partStep maxSize) ([], [])).2 ≠ []
  · simp only [if_pos hne] at hg
    rcases List.mem_append.mp hg with h | h
    · exact foldl_part_groups_ne maxSize ss [] [] (by simp) g h
    · simp at h; subst h; exact hne
  · simp only [if_neg hne] at hg
    exact foldl_part_groups_ne maxSize ss [] [] (by simp) g hg

theorem packPartition_flatten (maxSize : Nat) (ss : List (List Char))
    (hne : ∀ s ∈ ss, s ≠ []) :
    (packPartition maxSize ss).flatten = ss := by
  unfold packPartition
  have h := foldl_part_flatten maxSize ss [] []
  simp only [List.flatten_nil, List.nil_append] at h
  by_cases hc : pyJoin (ss.foldl (partStep maxSize) ([], [])).2 ≠ []
  · simp only [if_pos hc]
    rw [List.flatten_append]
    simpa using h
  · simp only [if_neg hc]
    push_neg at hc
    have hseg : (ss.foldl (partStep maxSize) ([], [])).2 = [] := by
      by_contra hsne
      obtain ⟨t, ts, hts⟩ := List.exists_cons_of_ne_nil hsne
      have ht : t ∈ (ss.foldl (partStep maxSize) ([], [])).2 := by rw [hts]; simp
      have : t ∈ ss := by
        have := h ▸ (List.mem_append.mpr (Or.inr ht))
        exact this
      exact pyJoin_ne_nil_of_mem ht (hne t this) hc
    rw [hseg, List.append_nil] at h
    exact h

theorem packPartition_mem_flatten {maxSize : Nat} {ss : List (List Char)}
    {g : List (List Char)} {s : List Char}
    (hg : g ∈ packPartition maxSize ss) (hs : s ∈ g) :
    s ∈ (packPartition maxSize ss).flatten :=
  List.mem_flatten.mpr ⟨g, hg, hs⟩

/-! ### Oversized sentences occupy a group of their own -/

theorem foldl_part_oversized (maxSize : Nat) :
    ∀ (ss : List (List Char)) (done : List (List (List Char)))
      (seg : List (List Char)),
      (∀ g ∈ done, ∀ s ∈ g, maxSize < s.length → pyJoin g = s) →
      (∀ s ∈ seg, maxSize < s.length → pyJoin seg = s) →
      (∀ g ∈ (ss.foldl (partStep maxSize) (done, seg)).1, ∀ s ∈ g,
          maxSize < s.length → pyJoin g = s) ∧
        (∀ s ∈ (ss.foldl (partStep maxSize) (done, seg)).2, maxSize < s.length →
          pyJoin (ss.foldl (partStep maxSize) (done, seg)).2 = s) := by
  intro ss
  induction ss with
  | nil => intro done seg hdone hseg; exact ⟨hdone, hseg⟩
  | cons t ss' ih =>
    intro done seg hdone hseg
    rw [List.foldl_cons]
    by_cases hc : (pyJoin seg).length + t.length > maxSize ∧ pyJoin seg ≠ []
    · rw [show partStep maxSize (done, seg) t = (done ++ [seg], [t]) from by
        unfold partStep; simp only [if_pos hc]]
      refine ih _ _ ?_ ?_
      · intro g hg
        rcases List.mem_append.mp hg with hg | hg
        · exact hdone g hg
        · simp at hg; subst hg; exact hseg
      · intro s hs hlen
        simp at hs
        subst hs
        rfl
    · rw [show partStep maxSize (done, seg) t = (done, seg ++ [t]) from by
        unfold partStep; simp only [if_neg hc]]
      refine ih _ _ hdone ?_
      intro s hs hlen
      have hsne : s ≠ [] := by
        intro h; rw [h] at hlen; simp at hlen
      rcases List.mem_append.mp hs with hsmem | hsmem
      · exfalso
        have hj := hseg s hsmem hlen
        apply hc
        constructor
        · rw [hj]; omega
        · rw [hj]; exact hsne
      · simp at hsmem
        subst hsmem
        have hjnil : pyJoin seg = [] := by
          by_contra hjne
          exact hc ⟨by omega, hjne⟩
        rw [pyJoin_append_single, hjnil]
        simp

theorem packPartition_oversized (maxSize : Nat) (ss : List (List Char)) :
    ∀ g ∈ packPartition maxSize ss, ∀ s ∈ g, maxSize < s.length → pyJoin g = s := by
  unfold packPartition
  have h := foldl_part_oversized maxSize ss [] [] (by simp) (by simp)
  by_cases hc : pyJoin (ss.foldl (partStep maxSize) ([], [])).2 ≠ []
  · simp only [if_pos hc]
    intro g hg
    rcases List.mem_append.mp hg with hg | hg
    · exact h.1 g hg
    · simp at hg; subst hg; exact h.2
  · simp only [if_neg hc]
    exact h.1

theorem mem_flatten_packPartition (maxSize : Nat) {ss : List (List Char)}
    {s : List Char} (hmem : s ∈ ss) (hsne : s ≠ []) :
    s ∈ (packPartition maxSize ss).flatten := by
  unfold packPartition
  have h := foldl_part_flatten maxSize ss [] []
  simp only [List.flatten_nil, List.nil_append] at h
  by_cases hc : pyJoin (ss.foldl (partStep maxSize) ([], [])).2 ≠ []
  · simp only [if_pos hc]
    rw [List.flatten_append]
    simp only [List.flatten_cons, List.flatten_nil, List.append_nil]
    rw [h]
    exact hmem
  · simp only [if_neg hc]
    push_neg at hc
    rw [← h] at hmem
    rcases List.mem_append.mp hmem with hm | hm
    · exact hm
    · exact absurd (pyJoin_eq_nil_forall hc s hm) hsne

/-! ### Facts about the sentence lists the chunker produces -/

theorem sentences_stripped {chapter s : List Char}
    (h : s ∈ sentencesOfChapter chapter) : pyStrip s = s := by
  unfold sentencesOfChapter at h
  rw [List.mem_flatMap] at h
  obtain ⟨line, _, hs⟩ := h
  unfold sentencesOfLine at hs
  rw [List.mem_map] at hs
  obtain ⟨p, _, hp⟩ := hs
  rw [← hp]
  exact pyStrip_idem p

theorem mem_splitChar_subset {sep : Char} :
    ∀ {l p : List Char}, p ∈ splitChar sep l → ∀ {c}, c ∈ p → c ∈ l := by
  intro l
  induction l with
  | nil =>
    intro p hp c hc
    simp [splitChar] at hp
    subst hp
    simp at hc
  | cons a rest ih =>
    intro p hp c hc
    by_cases ha : a = sep
    · rw [ha] at hp
      rw [splitChar_cons_sep] at hp
      rcases List.mem_cons.mp hp with h | h
      · rw [h] at hc; simp at hc
      · exact List.mem_cons_of_mem a (ih h hc)
    · rw [splitChar_cons_ne ha] at hp
      obtain ⟨q, qs, hcons⟩ := List.exists_cons_of_ne_nil (splitChar_ne_nil sep rest)
      rw [hcons] at hp
      simp only [List.modifyHead] at hp
      rcases List.mem_cons.mp hp with h | h
      · rw [h] at hc
        rcases List.mem_cons.mp hc with h2 | h2
        · rw [h2]; exact List.mem_cons_self a rest
        · refine List.mem_cons_of_mem a (ih ?_ h2)
          rw [hcons]; exact List.mem_cons_self q qs
      · refine List.mem_cons_of_mem a (ih ?_ hc)
        rw [hcons]; exact List.mem_cons_of_mem q h

theorem line_no_pipe {chapter line : List Char} (hpipe : '|' ∉ chapter)
    (hline : line ∈ ((splitChar '\n' chapter).map pyStrip).filter (· ≠ [])) :
    '|' ∉ line := by
  intro hmem
  rw [List.mem_filter] at hline
  obtain ⟨hline1, _⟩ := hline
  rw [List.mem_map] at hline1
  obtain ⟨raw, hraw, hstrip⟩ := hline1
  rw [← hstrip] at hmem
  exact hpipe (mem_splitChar_subset hraw (mem_pyStrip hmem))

theorem sentencesOfChapter_eq_specTrimmed {chapter : List Char}
    (hpipe : '|' ∉ chapter) :
    sentencesOfChapter chapter = specSentencesTrimmed chapter := by
  unfold sentencesOfChapter specSentencesTrimmed specSentences
  rw [List.map_flatMap]
  apply List.flatMap_congr
  intro line hline
  unfold sentencesOfLine
  rw [sentenceParts_eq_specSplit (line_no_pipe hpipe hline)]

theorem line_getLast_not_ws {chapter line : List Char}
    (hline : line ∈ ((splitChar '\n' chapter).map pyStrip).filter (· ≠ [])) :
    ∀ c, line.getLast? = some c → c.isWhitespace = false := by
  intro c hc
  rw [List.mem_filter] at hline
  obtain ⟨hline1, _⟩ := hline
  rw [List.mem_map] at hline1
  obtain ⟨raw, _, hstrip⟩ := hline1
  rw [← hstrip] at hc
  exact pyStrip_getLast_not_ws hc

theorem sentencesOfChapter_ne_nil {chapter : List Char} (hpipe : '|' ∉ chapter) :
    ∀ s ∈ sentencesOfChapter chapter, s ≠ [] := by
  intro s hs
  unfold sentencesOfChapter at hs
  rw [List.mem_flatMap] at hs
  obtain ⟨line, hline, hsline⟩ := hs
  unfold sentencesOfLine at hsline
  rw [sentenceParts_eq_specSplit (line_no_pipe hpipe hline)] at hsline
  rw [List.mem_map] at hsline
  obtain ⟨p, hp, hps⟩ := hsline
  rw [List.mem_filter] at hp
  obtain ⟨hp1, hp2⟩ := hp
  rw [← hps]
  exact specSplit_strip_ne (line_getLast_not_ws hline) p hp1 (by simpa using hp2)

/-! ### Claim theorems for the chunker -/

/-- Claim C2: chunking the input `"Hello world. This is chapter one! Is it?\n"`
as a single chapter with `max_chunk_size = 20` yields exactly the chunks
`["Hello world.", "This is chapter one!", "Is it?"]` for chapter index 1
(scenario A). -/
theorem chunk_scenario_a :
    chunksByChapter 20 ["Hello world. This is chapter one! Is it?\n".data] =
      [(1, ["Hello world.".data, "This is chapter one!".data, "Is it?".data])] := by
  decide

/-- Claim C3: for every positive `max_chunk_size`, a sentence of the chapter
whose length exceeds `max_chunk_size` appears in the chunker's output as its
own chunk (the chunk is the sentence itself, so it is neither merged with
another sentence nor truncated): it is an element of the chunk list, and every
packing group containing it yields exactly that sentence as its chunk. -/
theorem oversized_sentence_alone (chapter : List Char) (maxSize : Nat)
    (s : List Char) (hpos : 0 < maxSize)
    (hmem : s ∈ sentencesOfChapter chapter) (hlen : maxSize < s.length) :
    s ∈ chunkChapter maxSize chapter ∧
      ∀ g ∈ packPartition maxSize (sentencesOfChapter chapter), s ∈ g →
        pyStrip (pyJoin g) = s := by
  have hstr : pyStrip s = s := sentences_stripped hmem
  have hsne : s ≠ [] := by
    intro h; rw [h] at hlen; simp at hlen
  have hgroup : ∀ g ∈ packPartition maxSize (sentencesOfChapter chapter), s ∈ g →
      pyStrip (pyJoin g) = s := by
    intro g hg hsg
    rw [packPartition_oversized maxSize _ g hg s hsg hlen]
    exact hstr
  constructor
  · have hflat := mem_flatten_packPartition maxSize hmem hsne
    obtain ⟨g, hg, hsg⟩ := List.mem_flatten.mp hflat
    unfold chunkChapter
    rw [chunkSentences_eq_partition]
    rw [List.mem_map]
    exact ⟨g, hg, hgroup g hg hsg⟩
  · exact hgroup

/-- Witness for C3 at a concrete input: chapter
`"Hi. This sentence is long."` with `max_chunk_size = 5`; the 22-character
second sentence is its own chunk. -/
theorem oversized_sentence_alone_witness :
    0 < 5 ∧
    "This sentence is long.".data ∈
      sentencesOfChapter "Hi. This sentence is long.".data ∧
    5 < "This sentence is long.".data.length ∧
    ("This sentence is long.".data ∈ chunkChapter 5 "Hi. This sentence is long.".data ∧
      ∀ g ∈ packPartition 5 (sentencesOfChapter "Hi. This sentence is long.".data),
        "This sentence is long.".data ∈ g →
          pyStrip (pyJoin g) = "This sentence is long.".data) :=
  ⟨by decide, by decide, by decide,
    oversized_sentence_alone _ 5 _ (by decide) (by decide) (by decide)⟩

/-- Claim C1 as stated is false: the chunks do not always reproduce the
verbatim fragment sequence obtained by splitting at terminal punctuation
followed by a space.  Two counterexamples at `max_chunk_size = 100`: the
chapter `"a.  b"` (two spaces: the fragment `" b"` keeps its leading space but
the chunk joins the stripped sentences as `"a. b"`), and the chapter
`"a|b. c"` (the code's `'|'` sentinel splits the fragment `"a|b."` apart, and
the chunk `"a b. c"` cannot be re-split into the fragment sequence). -/
theorem chunk_partition_cex :
    ¬ reproducesSentences "a.  b".data 100 (specSentences "a.  b".data) ∧
    ¬ reproducesSentences "a|b. c".data 100 (specSentences "a|b. c".data) := by
  constructor
  · rintro ⟨ps, hflat, hnil, heq⟩
    have hch : chunkChapter 100 "a.  b".data = ["a. b".data] := by decide
    have hspec : specSentences "a.  b".data = ["a.".data, " b".data] := by decide
    rw [hch] at heq
    rw [hspec] at hflat
    have hlen : ps.length = 1 := by
      have h := congrArg List.length heq
      simpa using h.symm
    obtain ⟨g, hg⟩ := List.length_eq_one.mp hlen
    subst hg
    simp only [List.flatten_cons, List.flatten_nil, List.append_nil] at hflat
    rw [hflat] at heq
    exact absurd heq (by decide)
  · rintro ⟨ps, hflat, hnil, heq⟩
    have hch : chunkChapter 100 "a|b. c".data = ["a b. c".data] := by decide
    have hspec : specSentences "a|b. c".data = ["a|b.".data, "c".data] := by decide
    rw [hch] at heq
    rw [hspec] at hflat
    have hlen : ps.length = 1 := by
      have h := congrArg List.length heq
      simpa using h.symm
    obtain ⟨g, hg⟩ := List.length_eq_one.mp hlen
    subst hg
    simp only [List.flatten_cons, List.flatten_nil, List.append_nil] at hflat
    rw [hflat] at heq
    exact absurd heq (by decide)

/-- Claim C1 (amended): for every chapter text not containing the character
`'|'` and every positive `max_chunk_size`, no chunk contains a partial
sentence and concatenating a chapter's chunks (dropping the single
inter-sentence spacing) reproduces exactly the sentence sequence obtained by
splitting at terminal punctuation followed by a space, with each fragment
trimmed of surrounding whitespace: the chunk list is elementwise the
single-space join of a partition of that sequence into non-empty groups. -/
theorem chunk_partition_spec (chapter : List Char) (maxSize : Nat)
    (hpos : 0 < maxSize) (hpipe : '|' ∉ chapter) :
    reproducesSentences chapter maxSize (specSentencesTrimmed chapter) := by
  unfold reproducesSentences
  have hswap : specSentencesTrimmed chapter = sentencesOfChapter chapter :=
    (sentencesOfChapter_eq_specTrimmed hpipe).symm
  have hne : ∀ s ∈ sentencesOfChapter chapter, s ≠ [] :=
    sentencesOfChapter_ne_nil hpipe
  have hstr : ∀ s ∈ sentencesOfChapter chapter, pyStrip s = s :=
    fun s hs => sentences_stripped hs
  refine ⟨packPartition maxSize (sentencesOfChapter chapter), ?_, ?_, ?_⟩
  · rw [hswap]
    exact packPartition_flatten maxSize _ hne
  · intro h
    exact packPartition_groups_ne maxSize _ [] h rfl
  · unfold chunkChapter
    rw [chunkSentences_eq_partition]
    apply List.map_congr_left
    intro g hg
    have hjne := packPartition_groups_ne maxSize _ g hg
    have hgne : g ≠ [] := by
      intro h; rw [h] at hjne; exact hjne rfl
    have hflat := packPartition_flatten maxSize _ hne
    have hmem : ∀ s ∈ g, s ∈ sentencesOfChapter chapter := by
      intro s hs
      rw [← hflat]
      exact List.mem_flatten.mpr ⟨g, hg, hs⟩
    have hels : ∀ s ∈ g, s ≠ [] := fun s hs => hne s (hmem s hs)
    have hstrs : ∀ s ∈ g, pyStrip s = s := fun s hs => hstr s (hmem s hs)
    rw [pyStrip_pyJoin hgne hels hstrs]
    exact pyJoin_eq_intercalate hgne hels

/-- Witness for the amended C1 at scenario A's chapter text and
`max_chunk_size = 20`. -/
theorem chunk_partition_spec_witness :
    0 < 20 ∧ '|' ∉ "Hello world. This is chapter one! Is it?".data ∧
    reproducesSentences "Hello world. This is chapter one! Is it?".data 20
      (specSentencesTrimmed "Hello world. This is chapter one! Is it?".data) :=
  ⟨by decide, by decide, chunk_partition_spec _ 20 (by decide) (by decide)⟩

/-- Claim C9: both stages are read-modify-write on the metadata document:
chunking replaces only the `chunks` field and preserves `title`, `author`,
`chapter_count`, `cover_file` (and `chapter_markers`); assembly replaces only
`chapter_markers` and preserves everything else including `chunks`. -/
theorem document_field_preservation (d : ChunksDocument)
    (fileLines : List (List Char)) (maxSize : Nat)
    (markers : List (Nat × Marker)) :
    (chunk_text (some d) fileLines maxSize).title = d.title ∧
    (chunk_text (some d) fileLines maxSize).author = d.author ∧
    (chunk_text (some d) fileLines maxSize).chapter_count = d.chapter_count ∧
    (chunk_text (some d) fileLines maxSize).cover_file = d.cover_file ∧
    (chunk_text (some d) fileLines maxSize).chapter_markers = d.chapter_markers ∧
    (chunk_text (some d) fileLines maxSize).chunks =
      some (chunksByChapter maxSize fileLines) ∧
    (stitchWriteDoc d markers).title = d.title ∧
    (stitchWriteDoc d markers).author = d.author ∧
    (stitchWriteDoc d markers).chapter_count = d.chapter_count ∧
    (stitchWriteDoc d markers).cover_file = d.cover_file ∧
    (stitchWriteDoc d markers).chunks = d.chunks ∧
    (stitchWriteDoc d markers).chapter_markers = some markers :=
  ⟨rfl, rfl, rfl, rfl, rfl, rfl, rfl, rfl, rfl, rfl, rfl, rfl⟩

/-- Claim C10: blank or whitespace-only input lines are discarded before
chapter indices are assigned: inserting a blank line anywhere leaves the
chapter map unchanged (so a blank line yields no chapter entry and later
chapters shift down), and the chapter keys are exactly `1..N` where `N`
counts the non-blank lines. -/
theorem blank_lines_dropped (maxSize : Nat) (xs ys : List (List Char))
    (blank : List Char) (hblank : pyStrip blank = []) :
    chunksByChapter maxSize (xs ++ blank :: ys) =
      chunksByChapter maxSize (xs ++ ys) ∧
    (chunksByChapter maxSize (xs ++ ys)).map Prod.fst =
      List.range' 1 (chapterLines (xs ++ ys)).length := by
  constructor
  · unfold chunksByChapter
    have h : chapterLines (xs ++ blank :: ys) = chapterLines (xs ++ ys) := by
      unfold chapterLines
      rw [List.map_append, List.map_append, List.map_cons]
      rw [List.filter_append, List.filter_append, List.filter_cons]
      simp [hblank]
    rw [h]
  · unfold chunksByChapter
    rw [List.map_map]
    have h1 : (Prod.fst ∘ fun p : Nat × List Char =>
        (p.1 + 1, chunkChapter maxSize p.2)) = (fun p => p.1 + 1) := rfl
    rw [h1]
    have h2 : (fun p : Nat × List Char => p.1 + 1) =
        ((fun n => n + 1) ∘ Prod.fst) := rfl
    rw [h2, ← List.map_map, List.enum_map_fst, List.range'_eq_map_range]
    apply List.map_congr_left
    intro a _
    omega

/-- Witness for C10 at a concrete input: a whitespace-only line between two
chapter lines is dropped and the second chapter keeps index 2. -/
theorem blank_lines_dropped_witness :
    pyStrip "  ".data = [] ∧
    (chunksByChapter 10 ["One.".data, "  ".data, "Two.".data] =
        chunksByChapter 10 ["One.".data, "Two.".data] ∧
      (chunksByChapter 10 ["One.".data, "Two.".data]).map Prod.fst =
        List.range' 1 (chapterLines ["One.".data, "Two.".data]).length) :=
  ⟨by decide, blank_lines_dropped 10 ["One.".data] ["Two.".data] "  ".data (by decide)⟩

/-! ### Claim C6: evaluation at scenario B -/

/-- Claim C6 (evaluation at the failing input, scenario B): with
`chapter_count = 2` and only `chapter_1.wav` and `chunk_01_0000.wav` present,
the plan contains only chapter-1 material, but the recorded markers carry the
keys `0` AND `1`: the plan's first item is the pause inserted before the
announcement, never the announcement itself, so the `chapter_1.wav in
files_to_stitch[0]` check cannot fire and a degenerate intro marker
`0 ↦ {start_ms := 0, end_ms := 0}` is recorded, contradicting the claimed
"chapter_markers contains only key 1". -/
theorem stitch_scenario_b :
    stitch_audio "data/audio".data
        ["chapter_1.wav".data, "chunk_01_0000.wav".data] 2
        (fun f => if f = "chapter_1.wav".data then 2000 else 3000) 100 =
      .ok ([pauseMark, "chapter_1.wav".data, pauseMark, "chunk_01_0000.wav".data],
        [(0, { start_ms := 0, end_ms := some 0 }),
         (1, { start_ms := 0, end_ms := some 6800 })], 6800) ∧
    ([(0, { start_ms := 0, end_ms := some 0 }),
      (1, { start_ms := 0, end_ms := some 6800 })] : List (Nat × Marker)).map
        (fun e => e.1) ≠ [1] := by
  decide

/-! ### Lexicographic sorting of file names -/

theorem lexLe_cons (x y : Char) (as bs : List Char) :
    lexLe (x :: as) (y :: bs) =
      if x < y then true else if x = y then lexLe as bs else false := rfl

theorem lexLe_total : ∀ (a b : List Char), lexLe a b = true ∨ lexLe b a = true := by
  intro a
  induction a with
  | nil => intro b; left; rfl
  | cons x as ih =>
    intro b
    cases b with
    | nil => right; rfl
    | cons y bs =>
      rcases lt_trichotomy x y with h | h | h
      · left; rw [lexLe_cons, if_pos h]
      · subst h
        rw [lexLe_cons, lexLe_cons]
        simp only [lt_irrefl, if_false, if_pos rfl, if_neg]
        exact ih bs
      · right; rw [lexLe_cons, if_pos h]

theorem lexLe_antisymm : ∀ {a b : List Char},
    lexLe a b = true → lexLe b a = true → a = b := by
  intro a
  induction a with
  | nil =>
    intro b _ h2
    cases b with
    | nil => rfl
    | cons y bs => exact absurd h2 (by rw [show lexLe (y :: bs) [] = false from rfl]; simp)
  | cons x as ih =>
    intro b h1 h2
    cases b with
    | nil => exact absurd h1 (by rw [show lexLe (x :: as) [] = false from rfl]; simp)
    | cons y bs =>
      rw [lexLe_cons] at h1 h2
      by_cases hxy : x < y
      · rw [if_neg (asymm hxy), if_neg (ne_of_gt hxy)] at h2
        exact absurd h2 (by simp)
      · by_cases heq : x = y
        · subst heq
          rw [if_neg hxy, if_pos rfl] at h1 h2
          rw [ih h1 h2]
        · rw [if_neg hxy, if_neg heq] at h1
          exact absurd h1 (by simp)

theorem lexLe_trans : ∀ {a b c : List Char},
    lexLe a b = true → lexLe b c = true → lexLe a c = true := by
  intro a
  induction a with
  | nil => intro b c _ _; rfl
  | cons x as ih =>
    intro b c h1 h2
    cases b with
    | nil => exact absurd h1 (by rw [show lexLe (x :: as) [] = false from rfl]; simp)
    | cons y bs =>
      cases c with
      | nil => exact absurd h2 (by rw [show lexLe (y :: bs) [] = false from rfl]; simp)
      | cons z cs =>
        rw [lexLe_cons] at h1 h2 ⊢
        by_cases hxy : x < y
        · by_cases hyz : y < z
          · rw [if_pos (lt_trans hxy hyz)]
          · by_cases hyz2 : y = z
            · subst hyz2; rw [if_pos hxy]
            · rw [if_neg hyz, if_neg hyz2] at h2; exact absurd h2 (by simp)
        · by_cases hxy2 : x = y
          · subst hxy2
            rw [if_neg hxy, if_pos rfl] at h1
            by_cases hyz : x < z
            · rw [if_pos hyz]
            · by_cases hyz2 : x = z
              · subst hyz2
                rw [if_neg hxy, if_pos rfl] at h2 ⊢
                exact ih h1 h2
              · rw [if_neg hyz, if_neg hyz2] at h2; exact absurd h2 (by simp)
          · rw [if_neg hxy, if_neg hxy2] at h1; exact absurd h1 (by simp)

instance : IsTrans FileName fileLe := ⟨fun _ _ _ => lexLe_trans⟩

instance : IsAntisymm FileName fileLe := ⟨fun _ _ => lexLe_antisymm⟩

instance : IsTotal FileName fileLe := ⟨fun a b => lexLe_total a b⟩

theorem insertSorted_perm (x : FileName) :
    ∀ l : List FileName, (insertSorted x l).Perm (x :: l) := by
  intro l
  induction l with
  | nil => exact List.Perm.refl _
  | cons y t ih =>
    unfold insertSorted
    by_cases h : lexLe x y
    · simp only [if_pos h]
      exact List.Perm.refl _
    · simp only [if_neg h]
      exact (List.Perm.cons y ih).trans (List.Perm.swap x y t)

theorem sortFiles_perm (l : List FileName) : (sortFiles l).Perm l := by
  induction l with
  | nil => exact List.Perm.refl _
  | cons x t ih =>
    unfold sortFiles
    rw [List.foldr_cons]
    exact (insertSorted_perm x _).trans (List.Perm.cons x ih)

theorem insertSorted_sorted (x : FileName) :
    ∀ {l : List FileName}, l.Sorted fileLe → (insertSorted x l).Sorted fileLe := by
  intro l
  induction l with
  | nil =>
    intro _
    simp [insertSorted, List.Sorted]
  | cons y t ih =>
    intro h
    rw [List.sorted_cons] at h
    obtain ⟨hy, ht⟩ := h
    unfold insertSorted
    by_cases hxy : lexLe x y
    · simp only [if_pos hxy]
      rw [List.sorted_cons]
      refine ⟨?_, by rw [List.sorted_cons]; exact ⟨hy, ht⟩⟩
      intro b hb
      rcases List.mem_cons.mp hb with h | h
      · rw [h]; exact hxy
      · exact lexLe_trans hxy (hy b h)
    · simp only [if_neg hxy]
      rw [List.sorted_cons]
      constructor
      · intro b hb
        have hmem := (insertSorted_perm x t).mem_iff.mp hb
        rcases List.mem_cons.mp hmem with h | h
        · rw [h]
          rcases lexLe_total y x with hyx | hyx
          · exact hyx
          · exact absurd hyx hxy
        · exact hy b h
      · exact ih ht

theorem sortFiles_sorted (l : List FileName) : (sortFiles l).Sorted fileLe := by
  induction l with
  | nil => simp [sortFiles, List.Sorted]
  | cons x t ih =>
    unfold sortFiles
    rw [List.foldr_cons]
    exact insertSorted_sorted x ih

theorem sortFiles_eq_of_perm_sorted {l m : List FileName}
    (hp : l.Perm m) (hs : m.Sorted fileLe) : sortFiles l = m :=
  List.eq_of_perm_of_sorted ((sortFiles_perm l).trans hp) (sortFiles_sorted l) hs

/-! ### Claim C7: empty plans are fatal, missing units are skipped -/

theorem globChunks_subset (dir : List FileName) (c : Nat) :
    ∀ x ∈ globChunks dir c, x ∈ dir := by
  intro x hx
  unfold globChunks at hx
  have := (sortFiles_perm _).mem_iff.mp hx
  exact (List.mem_filter.mp this).1

theorem buildPlan_nil (count : Nat) : buildPlan [] count = [] := by
  unfold buildPlan
  have hmeta : ["title.wav".data, "author.wav".data, "chapter_count.wav".data].foldl
      (fun acc m => if m ∈ ([] : List FileName) then acc ++ [m] else acc) [] = [] := by
    simp
  rw [hmeta]
  have hchap : ∀ (l : List Nat),
      l.foldl (fun acc c =>
        (if chapterFile c ∈ ([] : List FileName) then
          acc ++ [pauseMark, chapterFile c, pauseMark] else acc)
        ++ globChunks [] c) [] = [] := by
    intro l
    induction l with
    | nil => rfl
    | cons c t ih =>
      rw [List.foldl_cons]
      simp only [List.not_mem_nil, if_neg, ite_false]
      have hglob : globChunks [] c = [] := rfl
      rw [hglob, List.append_nil]
      exact ih
  simp only [hmeta, hchap]
  rfl

theorem popTrailingAux_subset :
    ∀ (fuel : Nat) (l : List FileName) (x : FileName),
      x ∈ popTrailingAux fuel l → x ∈ l := by
  intro fuel
  induction fuel with
  | zero => intro l x h; exact h
  | succ fuel ih =>
    intro l x h
    unfold popTrailingAux at h
    by_cases hc : l.getLast? = some pauseMark
    · rw [if_pos hc] at h
      exact (List.dropLast_sublist l).subset (ih l.dropLast x h)
    · rw [if_neg hc] at h
      exact h

theorem buildPlan_mem (dir : List FileName) (count : Nat) :
    ∀ x ∈ buildPlan dir count, x = pauseMark ∨ x ∈ dir := by
  unfold buildPlan
  have hmeta : ∀ (ms : List FileName) (acc : List FileName),
      (∀ x ∈ acc, x = pauseMark ∨ x ∈ dir) →
      ∀ x ∈ ms.foldl (fun acc m => if m ∈ dir then acc ++ [m] else acc) acc,
        x = pauseMark ∨ x ∈ dir := by
    intro ms
    induction ms with
    | nil => intro acc h; exact h
    | cons m ms' ih =>
      intro acc h
      rw [List.foldl_cons]
      by_cases hm : m ∈ dir
      · rw [if_pos hm]
        refine ih _ ?_
        intro x hx
        rcases List.mem_append.mp hx with hx | hx
        · exact h x hx
        · simp at hx; subst hx; exact Or.inr hm
      · rw [if_neg hm]; exact ih _ h
  have hchap : ∀ (cs : List Nat) (acc : List FileName),
      (∀ x ∈ acc, x = pauseMark ∨ x ∈ dir) →
      ∀ x ∈ cs.foldl (fun acc c =>
          (if chapterFile c ∈ dir then
            acc ++ [pauseMark, chapterFile c, pauseMark] else acc)
          ++ globChunks dir c) acc,
        x = pauseMark ∨ x ∈ dir := by
    intro cs
    induction cs with
    | nil => intro acc h; exact h
    | cons c cs' ih =>
      intro acc h
      rw [List.foldl_cons]
      refine ih _ ?_
      intro x hx
      rcases List.mem_append.mp hx with hx | hx
      · by_cases hc : chapterFile c ∈ dir
        · rw [if_pos hc] at hx
          rcases List.mem_append.mp hx with hx | hx
          · exact h x hx
          · simp at hx
            rcases hx with hx | hx | hx
            · exact Or.inl hx
            · rw [hx]; exact Or.inr hc
            · exact Or.inl hx
        · rw [if_neg hc] at hx; exact h x hx
      · exact Or.inr (globChunks_subset dir c x hx)
  intro x hx
  have := popTrailingAux_subset _ _ x hx
  exact hchap (List.range' 1 count) _ (hmeta _ [] (by simp)) x this

/-- Claim C7: whenever the assembly plan is empty after trailing-pause
stripping — for any unit directory and chapter count, so in particular for an
empty directory or a non-empty directory holding no matching files —
`stitch_audio` fails with the hard error naming the unit directory and
produces no output (the `Except.error` short-circuits before any waveform is
assembled or written); a non-empty plan always assembles (`Except.ok`); and
an individual file that is absent from the directory is silently skipped: it
never appears in the plan at all. -/
theorem stitch_error_handling :
    (∀ (input_dir : List Char) (dir : List FileName) (count : Nat)
        (dur : FileName → Nat) (fade : Nat),
      buildPlan dir count = [] →
        stitch_audio input_dir dir count dur fade =
          .error ("No audio files found to stitch in ".data ++ input_dir)) ∧
    (∀ (input_dir : List Char) (dir : List FileName) (count : Nat)
        (dur : FileName → Nat) (fade : Nat),
      buildPlan dir count ≠ [] →
        ∃ res, stitch_audio input_dir dir count dur fade = .ok res) ∧
    (∀ (dir : List FileName) (count : Nat) (f : FileName),
      f ∉ dir → f ≠ pauseMark → f ∉ buildPlan dir count) := by
  refine ⟨?_, ?_, ?_⟩
  · intro input_dir dir count dur fade hempty
    unfold stitch_audio
    rw [hempty]
  · intro input_dir dir count dur fade hne
    unfold stitch_audio
    obtain ⟨f, rest, hcons⟩ := List.exists_cons_of_ne_nil hne
    rw [hcons]
    exact ⟨_, rfl⟩
  · intro dir count f hdir hpause hmem
    rcases buildPlan_mem dir count f hmem with h | h
    · exact hpause h
    · exact hdir h

/-- Witness for C7: an empty directory and a non-empty directory containing
only a non-matching file (`readme.txt`, `chapter_count = 2`) both yield an
empty plan and raise the empty-plan error naming the directory; a directory
holding only `title.wav` assembles; a missing `chapter_2.wav` never appears
in the plan. -/
theorem stitch_error_handling_witness :
    buildPlan [] 2 = [] ∧
    buildPlan ["readme.txt".data] 2 = [] ∧
    stitch_audio "data/audio".data [] 2 (fun _ => 500) 0 =
      .error ("No audio files found to stitch in ".data ++ "data/audio".data) ∧
    stitch_audio "data/audio".data ["readme.txt".data] 2 (fun _ => 500) 0 =
      .error ("No audio files found to stitch in ".data ++ "data/audio".data) ∧
    (∃ res, stitch_audio "d".data ["title.wav".data] 0 (fun _ => 500) 0 = .ok res) ∧
    "chapter_2.wav".data ∉ buildPlan ["chapter_1.wav".data] 2 :=
  ⟨by decide, by decide,
   stitch_error_handling.1 "data/audio".data [] 2 (fun _ => 500) 0 (by decide),
   stitch_error_handling.1 "data/audio".data ["readme.txt".data] 2
     (fun _ => 500) 0 (by decide),
   stitch_error_handling.2.1 "d".data ["title.wav".data] 0 (fun _ => 500) 0 (by decide),
   stitch_error_handling.2.2 ["chapter_1.wav".data] 2 "chapter_2.wav".data
     (by decide) (by decide)⟩

/-! ### Claim C8: join semantics -/

theorem stitchStep_combined (dur : FileName → Nat) (fade planLen : Nat)
    (st : StitchSt) (i : Nat) (f : FileName) :
    (stitchStep dur fade planLen st i f).combined =
      if f = pauseMark then st.combined + 1000 else st.combined + dur f - fade := by
  unfold stitchStep
  by_cases hA : isSubstr (chapterFile (st.chapter_idx + 1)) f
  <;> by_cases hB : f = pauseMark
  <;> simp only [hA, hB, ite_true, ite_false, if_pos, if_neg,
        apply_ite StitchSt.combined, ite_self]

theorem stitchLoop_combined (dur : FileName → Nat) (fade planLen : Nat) :
    ∀ (rest : List FileName) (i : Nat) (st : StitchSt),
      (∀ g ∈ rest, g ≠ pauseMark → fade ≤ dur g) →
      (stitchLoop dur fade planLen i rest st).combined =
        st.combined +
          (rest.map (fun g => if g = pauseMark then 1000 else dur g - fade)).sum := by
  intro rest
  induction rest with
  | nil => intro i st _; simp [stitchLoop]
  | cons g rest' ih =>
    intro i st hfade
    unfold stitchLoop
    rw [ih (i + 1) _ (fun x hx hp => hfade x (List.mem_cons_of_mem g hx) hp)]
    rw [stitchStep_combined]
    rw [List.map_cons, List.sum_cons]
    by_cases hg : g = pauseMark
    · rw [if_pos hg, if_pos hg]
      omega
    · rw [if_neg hg, if_neg hg]
      have hle : fade ≤ dur g := hfade g (List.mem_cons_self g rest') hg
      omega

/-- Claim C8: in the joining loop every PAUSE marker contributes a fixed
1000 ms of silence with zero crossfade, while every waveform unit after the
first plan item — including the first real unit after a PAUSE — contributes
`dur - fade_duration_ms`, its head overlapping the tail of whatever precedes
it (silence included).  Stated as the exact closed form of the assembled
duration. -/
theorem stitch_join_semantics (dur : FileName → Nat) (fade : Nat)
    (f : FileName) (rest : List FileName)
    (hfade : ∀ g ∈ rest, g ≠ pauseMark → fade ≤ dur g) :
    (stitchFinal dur fade f rest).combined =
      (if f = pauseMark then 1000 else dur f) +
        (rest.map (fun g => if g = pauseMark then 1000 else dur g - fade)).sum := by
  unfold stitchFinal
  rw [stitchLoop_combined dur fade (rest.length + 1) rest 0 (stitchInit dur f) hfade]
  rfl

/-- Witness for C8: a title, a pause, and one chunk with a 100 ms crossfade:
`2000 + 1000 + (3000 - 100)`. -/
theorem stitch_join_semantics_witness :
    (∀ g ∈ [pauseMark, "chunk_01_0000.wav".data],
      g ≠ pauseMark → 100 ≤ (fun _ : FileName => 3000) g) ∧
    (stitchFinal (fun _ => 3000) 100 "title.wav".data
        [pauseMark, "chunk_01_0000.wav".data]).combined =
      (if "title.wav".data = pauseMark then 1000 else 3000) +
        ([pauseMark, "chunk_01_0000.wav".data].map
          (fun g => if g = pauseMark then 1000 else 3000 - 100)).sum :=
  ⟨by decide,
   stitch_join_semantics (fun _ => 3000) 100 "title.wav".data
     [pauseMark, "chunk_01_0000.wav".data] (by decide)⟩

/-! ### Decimal padding and the order of canonical chunk file names -/

theorem toDecimalAux_small (fuel n : Nat) (h : n < 10) :
    toDecimalAux fuel n = [Nat.digitChar n] := by
  cases fuel with
  | zero => rfl
  | succ fuel => unfold toDecimalAux; rw [if_pos h]

theorem toDecimalAux_ge (fuel n : Nat) (h : 10 ≤ n) :
    toDecimalAux (fuel + 1) n =
      toDecimalAux fuel (n / 10) ++ [Nat.digitChar (n % 10)] := by
  conv_lhs => unfold toDecimalAux
  rw [if_neg (by omega)]

theorem toDecimal_lt10 {n : Nat} (h : n < 10) :
    toDecimal n = [Nat.digitChar n] :=
  toDecimalAux_small n n h

theorem toDecimal_lt100 {n : Nat} (h1 : 10 ≤ n) (h2 : n < 100) :
    toDecimal n = [Nat.digitChar (n / 10), Nat.digitChar (n % 10)] := by
  unfold toDecimal
  obtain ⟨m, rfl⟩ : ∃ m, n = m + 1 := ⟨n - 1, by omega⟩
  rw [toDecimalAux_ge m (m + 1) h1]
  rw [toDecimalAux_small m ((m + 1) / 10) (by omega)]
  rfl

theorem toDecimal_lt1000 {n : Nat} (h1 : 100 ≤ n) (h2 : n < 1000) :
    toDecimal n = [Nat.digitChar (n / 100), Nat.digitChar (n / 10 % 10),
      Nat.digitChar (n % 10)] := by
  unfold toDecimal
  obtain ⟨m, rfl⟩ : ∃ m, n = m + 2 := ⟨n - 2, by omega⟩
  rw [show m + 2 = (m + 1) + 1 from rfl, toDecimalAux_ge (m + 1) (m + 2) (by omega)]
  rw [toDecimalAux_ge m ((m + 2) / 10) (by omega)]
  rw [toDecimalAux_small m ((m + 2) / 10 / 10) (by omega)]
  rw [Nat.div_div_eq_div_mul]
  rfl

theorem toDecimal_lt10000 {n : Nat} (h1 : 1000 ≤ n) (h2 : n < 10000) :
    toDecimal n = [Nat.digitChar (n / 1000), Nat.digitChar (n / 100 % 10),
      Nat.digitChar (n / 10 % 10), Nat.digitChar (n % 10)] := by
  unfold toDecimal
  obtain ⟨m, rfl⟩ : ∃ m, n = m + 3 := ⟨n - 3, by omega⟩
  have e2 : (m + 3) / 10 / 10 = (m + 3) / 100 := by
    rw [Nat.div_div_eq_div_mul]
  have e3 : (m + 3) / 100 / 10 = (m + 3) / 1000 := by
    rw [Nat.div_div_eq_div_mul]
  rw [toDecimalAux_ge (m + 2) (m + 3) (by omega)]
  rw [toDecimalAux_ge (m + 1) ((m + 3) / 10) (by omega)]
  rw [e2]
  rw [toDecimalAux_ge m ((m + 3) / 100) (by omega)]
  rw [e3]
  rw [toDecimalAux_small m ((m + 3) / 1000) (by omega)]
  rfl

theorem pad4_eq (n : Nat) (h : n < 10000) :
    padNum 4 n = [Nat.digitChar (n / 1000), Nat.digitChar (n / 100 % 10),
      Nat.digitChar (n / 10 % 10), Nat.digitChar (n % 10)] := by
  unfold padNum
  rcases Nat.lt_or_ge n 10 with h1 | h1
  · rw [toDecimal_lt10 h1]
    rw [Nat.div_eq_of_lt (by omega : n < 1000)]
    rw [Nat.div_eq_of_lt (by omega : n < 100)]
    rw [Nat.div_eq_of_lt (by omega : n < 10)]
    rw [Nat.mod_eq_of_lt h1]
    rfl
  rcases Nat.lt_or_ge n 100 with h2 | h2
  · rw [toDecimal_lt100 h1 h2]
    rw [Nat.div_eq_of_lt (by omega : n < 1000)]
    rw [Nat.div_eq_of_lt (by omega : n < 100)]
    rw [Nat.mod_eq_of_lt (by omega : n / 10 < 10)]
    rfl
  rcases Nat.lt_or_ge n 1000 with h3 | h3
  · rw [toDecimal_lt1000 h2 h3]
    rw [Nat.div_eq_of_lt (by omega : n < 1000)]
    rw [Nat.mod_eq_of_lt (by omega : n / 100 < 10)]
    rfl
  · rw [toDecimal_lt10000 h3 h]
    rfl

theorem digitChar_lt {a b : Nat} (ha : a < 10) (hb : b < 10) (hab : a < b) :
    Nat.digitChar a < Nat.digitChar b := by
  interval_cases a <;> interval_cases b <;> revert hab <;> decide

theorem lexLe_append_same :
    ∀ (p u v : List Char), lexLe (p ++ u) (p ++ v) = lexLe u v := by
  intro p
  induction p with
  | nil => intro u v; rfl
  | cons a p' ih =>
    intro u v
    rw [List.cons_append, List.cons_append, lexLe_cons,
      if_neg (lt_irrefl a), if_pos rfl, ih]

theorem chunkName_fileLe (c : Nat) {i j : Nat} (hij : i < j) (hj : j < 10000) :
    fileLe (chunkName c i) (chunkName c j) := by
  have hi : i < 10000 := lt_trans hij hj
  unfold fileLe chunkName
  rw [List.append_assoc, List.append_assoc, lexLe_append_same]
  rw [pad4_eq i hi, pad4_eq j hj]
  simp only [List.cons_append, List.nil_append]
  rcases Nat.lt_trichotomy (i / 1000) (j / 1000) with h3 | h3 | h3
  · rw [lexLe_cons, if_pos (digitChar_lt (by omega) (by omega) h3)]
  · rw [h3, lexLe_cons, if_neg (lt_irrefl _), if_pos rfl]
    rcases Nat.lt_trichotomy (i / 100 % 10) (j / 100 % 10) with h2 | h2 | h2
    · rw [lexLe_cons, if_pos (digitChar_lt (by omega) (by omega) h2)]
    · rw [h2, lexLe_cons, if_neg (lt_irrefl _), if_pos rfl]
      rcases Nat.lt_trichotomy (i / 10 % 10) (j / 10 % 10) with h1 | h1 | h1
      · rw [lexLe_cons, if_pos (digitChar_lt (by omega) (by omega) h1)]
      · rw [h1, lexLe_cons, if_neg (lt_irrefl _), if_pos rfl]
        have h0 : i % 10 < j % 10 := by omega
        rw [lexLe_cons, if_pos (digitChar_lt (by omega) (by omega) h0)]
      · omega
    · omega
  · omega

theorem map_chunkName_sorted (c : Nat) {is : List Nat}
    (hs : is.Sorted (· < ·)) (hb : ∀ i ∈ is, i < 10000) :
    (is.map (chunkName c)).Sorted fileLe := by
  rw [List.Sorted, List.pairwise_map]
  refine hs.imp_of_mem ?_
  intro i j hi hj hij
  exact chunkName_fileLe c hij (hb j hj)

theorem globChunks_canonical (dir : List FileName) (c : Nat) (is : List Nat)
    (hperm : (dir.filter (matchesChunkGlob c)).Perm (is.map (chunkName c)))
    (hs : is.Sorted (· < ·)) (hb : ∀ i ∈ is, i < 10000) :
    globChunks dir c = is.map (chunkName c) :=
  sortFiles_eq_of_perm_sorted hperm (map_chunkName_sorted c hs hb)

/-! ### Claim C4: the assembly plan -/

theorem popTrailingAux_eq :
    ∀ (fuel : Nat) (l : List FileName), l.length ≤ fuel →
      popTrailingAux fuel l = (l.reverse.dropWhile (fun x => x == pauseMark)).reverse := by
  intro fuel
  induction fuel with
  | zero =>
    intro l h
    have : l = [] := List.length_eq_zero.mp (Nat.le_zero.mp h)
    subst this
    rfl
  | succ fuel ih =>
    intro l h
    unfold popTrailingAux
    rcases List.eq_nil_or_concat l with hnil | ⟨l', x, hcat⟩
    · subst hnil
      rw [if_neg (by simp)]
      rfl
    · rw [List.concat_eq_append] at hcat
      subst hcat
      by_cases hx : x = pauseMark
      · subst hx
        rw [if_pos (by rw [List.getLast?_append]; rfl)]
        rw [List.dropLast_concat]
        rw [ih l' (by simp at h; omega)]
        rw [List.reverse_append]
        simp only [List.reverse_cons, List.reverse_nil, List.nil_append,
          List.singleton_append]
        rw [List.dropWhile_cons]
        simp
      · rw [if_neg (by rw [List.getLast?_append]; simp [hx])]
        rw [List.reverse_append]
        simp only [List.reverse_cons, List.reverse_nil, List.nil_append,
          List.singleton_append]
        rw [List.dropWhile_cons]
        have hbeq : (x == pauseMark) = false := by simp [hx]
        rw [hbeq]
        simp

theorem foldl_if_append (dir : List FileName) :
    ∀ (ms : List FileName) (acc : List FileName),
      ms.foldl (fun acc m => if m ∈ dir then acc ++ [m] else acc) acc =
        acc ++ ms.flatMap (fun m => if m ∈ dir then [m] else []) := by
  intro ms
  induction ms with
  | nil => intro acc; simp
  | cons m ms' ih =>
    intro acc
    rw [List.foldl_cons, List.flatMap_cons]
    by_cases hm : m ∈ dir
    · rw [if_pos hm, if_pos hm, ih]
      simp
    · rw [if_neg hm, if_neg hm, ih]
      simp

theorem foldl_chapters (dir : List FileName) :
    ∀ (cs : List Nat) (acc : List FileName),
      cs.foldl (fun acc c =>
          (if chapterFile c ∈ dir then
            acc ++ [pauseMark, chapterFile c, pauseMark] else acc)
          ++ globChunks dir c) acc =
        acc ++ cs.flatMap (fun c =>
          (if chapterFile c ∈ dir then [pauseMark, chapterFile c, pauseMark] else [])
          ++ globChunks dir c) := by
  intro cs
  induction cs with
  | nil => intro acc; simp
  | cons c cs' ih =>
    intro acc
    rw [List.foldl_cons, List.flatMap_cons]
    by_cases hc : chapterFile c ∈ dir
    · rw [if_pos hc, if_pos hc, ih]
      simp
    · rw [if_neg hc, if_neg hc, ih]
      simp

theorem flatMap_if_filter (dir : List FileName) (ms : List FileName) :
    ms.flatMap (fun m => if m ∈ dir then [m] else []) = ms.filter (· ∈ dir) := by
  induction ms with
  | nil => rfl
  | cons m ms' ih =>
    rw [List.flatMap_cons, List.filter_cons]
    by_cases hm : m ∈ dir
    · rw [if_pos hm, ih]
      simp [hm]
    · rw [if_neg hm, ih]
      simp [hm]

/-- Claim C4: for every unit directory whose chunk files follow the canonical
fixed-width naming convention (hypotheses: for each chapter `c` in range, the
glob matches are a permutation of `chunk_{c:02d}_{i:04d}.wav` for a strictly
ascending index list below 10000), the assembler's plan lists, in order, the
existing meta units `title`, `author`, `chapter_count` with no pauses, then
per chapter a pause / announcement / pause block exactly when the
announcement exists followed by that chapter's chunk units in ascending
chunk-index order, with all trailing pause markers stripped from the end. -/
theorem stitch_plan_spec (dir : List FileName) (count : Nat) (idx : Nat → List Nat)
    (hperm : ∀ c ∈ List.range' 1 count,
      (dir.filter (matchesChunkGlob c)).Perm ((idx c).map (chunkName c)))
    (hs : ∀ c ∈ List.range' 1 count, (idx c).Sorted (· < ·))
    (hb : ∀ c ∈ List.range' 1 count, ∀ i ∈ idx c, i < 10000) :
    buildPlan dir count =
      (((["title.wav".data, "author.wav".data, "chapter_count.wav".data].filter
            (· ∈ dir)) ++
          (List.range' 1 count).flatMap (fun c =>
            (if chapterFile c ∈ dir then
              [pauseMark, chapterFile c, pauseMark] else [])
            ++ (idx c).map (chunkName c))).reverse.dropWhile
          (fun x => x == pauseMark)).reverse := by
  unfold buildPlan popTrailing
  rw [popTrailingAux_eq _ _ (Nat.le_refl _)]
  rw [foldl_chapters, foldl_if_append]
  simp only [List.nil_append]
  rw [flatMap_if_filter]
  have hflat : (List.range' 1 count).flatMap (fun c =>
      (if chapterFile c ∈ dir then [pauseMark, chapterFile c, pauseMark] else [])
      ++ globChunks dir c) =
    (List.range' 1 count).flatMap (fun c =>
      (if chapterFile c ∈ dir then [pauseMark, chapterFile c, pauseMark] else [])
      ++ (idx c).map (chunkName c)) := by
    apply List.flatMap_congr
    intro c hc
    rw [globChunks_canonical dir c (idx c) (hperm c hc) (hs c hc) (hb c hc)]
  rw [hflat]

/-- Witness for C4: a directory with a title, chapter 1's announcement and
two chunk files listed out of order; the plan sorts the chunks by index. -/
theorem stitch_plan_spec_witness :
    (∀ c ∈ List.range' 1 1,
      ((["title.wav".data, "chapter_1.wav".data, "chunk_01_0001.wav".data,
          "chunk_01_0000.wav".data] : List FileName).filter
        (matchesChunkGlob c)).Perm
        (((fun c => if c = 1 then [0, 1] else []) c).map (chunkName c))) ∧
    (∀ c ∈ List.range' 1 1,
      ((fun c : Nat => if c = 1 then [0, 1] else []) c).Sorted (· < ·)) ∧
    (∀ c ∈ List.range' 1 1,
      ∀ i ∈ (fun c : Nat => if c = 1 then [0, 1] else []) c, i < 10000) ∧
    buildPlan ["title.wav".data, "chapter_1.wav".data, "chunk_01_0001.wav".data,
        "chunk_01_0000.wav".data] 1 =
      (((["title.wav".data, "author.wav".data, "chapter_count.wav".data].filter
            (· ∈ (["title.wav".data, "chapter_1.wav".data, "chunk_01_0001.wav".data,
              "chunk_01_0000.wav".data] : List FileName))) ++
          (List.range' 1 1).flatMap (fun c =>
            (if chapterFile c ∈ (["title.wav".data, "chapter_1.wav".data,
                "chunk_01_0001.wav".data, "chunk_01_0000.wav".data] : List FileName) then
              [pauseMark, chapterFile c, pauseMark] else [])
            ++ ((fun c => if c = 1 then [0, 1] else []) c).map
              (chunkName c))).reverse.dropWhile
          (fun x => x == pauseMark)).reverse :=
  ⟨by decide, by decide, by decide,
    stitch_plan_spec _ 1 (fun c => if c = 1 then [0, 1] else [])
      (by decide) (by decide) (by decide)⟩

/-! ### Claim C5: the marker bookkeeping invariant -/

theorem setEnd_concat (closed : List (Nat × Marker)) (op : Nat × Marker) (v : Nat)
    (hne : ∀ e ∈ closed, e.1 ≠ op.1) :
    setEnd (closed ++ [op]) op.1 v =
      closed ++ [(op.1, { op.2 with end_ms := some v })] := by
  unfold setEnd
  rw [List.map_append]
  congr 1
  · conv_rhs => rw [← List.map_id closed]
    apply List.map_congr_left
    intro e he
    rw [if_neg (hne e he)]
    rfl
  · simp

theorem chain'_concat_congr (l : List (Nat × Marker)) (a b : Nat × Marker)
    (h1 : a.1 = b.1) (h2 : a.2.start_ms = b.2.start_ms)
    (h : List.Chain' markerAdj (l ++ [a])) :
    List.Chain' markerAdj (l ++ [b]) := by
  rw [List.chain'_append] at h ⊢
  obtain ⟨hl, _, hlast⟩ := h
  refine ⟨hl, List.chain'_singleton b, ?_⟩
  intro x hx y hy
  simp only [List.head?_cons, Option.mem_def, Option.some.injEq] at hy
  subst hy
  have hadj := hlast x hx a (by simp)
  unfold markerAdj at hadj ⊢
  rw [← h1, ← h2]
  exact hadj

theorem inv_hasKey {st : StitchSt} (hinv : stitchInv st) :
    hasKey st.markers st.chapter_idx = true := by
  obtain ⟨closed, op, hm, hci, _⟩ := hinv
  rw [hm, hci]
  unfold hasKey
  rw [List.any_append]
  simp

theorem inv_transition {st : StitchSt} (hinv : stitchInv st) :
    stitchInv { st with
      markers := setEnd st.markers st.chapter_idx (st.current_ms - 1000) ++
        [(st.chapter_idx + 1,
          { start_ms := st.current_ms - 1000, end_ms := none })],
      chapter_idx := st.chapter_idx + 1 } := by
  obtain ⟨closed, op, hm, hci, hk, hch, he, hs, hcc⟩ := hinv
  rw [hm, hci]
  rw [setEnd_concat closed op _ (fun e he2 => ne_of_lt (hk e he2))]
  refine ⟨closed ++ [(op.1, { op.2 with end_ms := some (st.current_ms - 1000) })],
    (op.1 + 1, { start_ms := st.current_ms - 1000, end_ms := none }),
    by rw [List.append_assoc], rfl, ?_, ?_, ?_, ?_, ?_⟩
  · intro e hemem
    rcases List.mem_append.mp hemem with h | h
    · exact lt_trans (hk e h) (Nat.lt_succ_self _)
    · simp at h
      rw [h]
      exact Nat.lt_succ_self _
  · rw [List.chain'_append]
    refine ⟨chain'_concat_congr closed op _ rfl rfl hch, List.chain'_singleton _, ?_⟩
    intro x hx y hy
    rw [List.getLast?_concat] at hx
    simp only [Option.mem_def, Option.some.injEq] at hx
    simp only [List.head?_cons, Option.mem_def, Option.some.injEq] at hy
    subst hx
    subst hy
    exact ⟨rfl, rfl⟩
  · intro e hemem v hv
    rcases List.mem_append.mp hemem with h | h
    · rcases List.mem_append.mp h with h2 | h2
      · exact he e (List.mem_append.mpr (Or.inl h2)) v hv
      · simp at h2
        rw [h2] at hv ⊢
        simp at hv
        rw [← hv]
        exact hs
    · simp at h
      rw [h] at hv
      simp at hv
  · exact Nat.le_refl _
  · exact hcc

theorem inv_grow {st : StitchSt} (hinv : stitchInv st) (c : Nat)
    (hge : st.combined ≤ c) :
    stitchInv { st with combined := c, current_ms := c } := by
  obtain ⟨closed, op, hm, hci, hk, hch, he, hs, hcc⟩ := hinv
  refine ⟨closed, op, hm, hci, hk, hch, he, ?_, Nat.le_refl c⟩
  exact le_trans hs (Nat.sub_le_sub_right (le_trans hcc hge) 1000)

theorem inv_close {st : StitchSt} (hinv : stitchInv st)
    (hcur : st.current_ms = st.combined) :
    markersClosed { st with
      markers := setEnd st.markers st.chapter_idx st.current_ms } := by
  obtain ⟨closed, op, hm, hci, hk, hch, he, hs, hcc⟩ := hinv
  rw [hm, hci]
  rw [setEnd_concat closed op _ (fun e he2 => ne_of_lt (hk e he2))]
  refine ⟨chain'_concat_congr closed op _ rfl rfl hch, ?_, ?_, by simp⟩
  · intro e hemem v hv
    rcases List.mem_append.mp hemem with h | h
    · exact he e (List.mem_append.mpr (Or.inl h)) v hv
    · simp at h
      rw [h] at hv ⊢
      simp at hv
      rw [← hv]
      exact le_trans hs (Nat.sub_le _ _)
  · intro e hlast
    rw [List.getLast?_concat] at hlast
    simp only [Option.some.injEq] at hlast
    rw [← hlast]
    simp [hcur]

theorem close_if_of_inv {st : StitchSt} (hinv : stitchInv st)
    (hcur : st.current_ms = st.combined) (c : Prop) [Decidable c] (hcp : c) :
    markersClosed (if c ∧ hasKey st.markers st.chapter_idx = true then
      { st with markers := setEnd st.markers st.chapter_idx st.current_ms }
      else st) := by
  rw [if_pos ⟨hcp, inv_hasKey hinv⟩]
  exact inv_close hinv hcur

theorem noclose_if_of_inv {st : StitchSt} (hinv : stitchInv st)
    (c : Prop) [Decidable c] (hcn : ¬c) :
    stitchInv (if c ∧ hasKey st.markers st.chapter_idx = true then
      { st with markers := setEnd st.markers st.chapter_idx st.current_ms }
      else st) := by
  rw [if_neg (fun h => hcn h.1)]
  exact hinv

theorem stitchStep_inv (dur : FileName → Nat) (fade planLen : Nat)
    (st : StitchSt) (i : Nat) (f : FileName)
    (hfade : f ≠ pauseMark → fade ≤ dur f)
    (hnc : i + 2 ≠ planLen)
    (hinv : stitchInv st) :
    stitchInv (stitchStep dur fade planLen st i f) := by
  unfold stitchStep
  by_cases hA : isSubstr (chapterFile (st.chapter_idx + 1)) f
  · simp only [hA, ite_true]
    by_cases hB : f = pauseMark
    · simp only [hB, eq_self_iff_true, if_true, ite_true]
      refine noclose_if_of_inv (inv_grow (inv_transition hinv) _ ?_) _ hnc
      show st.combined ≤ st.combined + 1000
      omega
    · simp only [hB, if_false, ite_false]
      refine noclose_if_of_inv (inv_grow (inv_transition hinv) _ ?_) _ hnc
      show st.combined ≤ st.combined + dur f - fade
      have := hfade hB
      omega
  · simp only [hA, ite_false]
    by_cases hB : f = pauseMark
    · simp only [hB, eq_self_iff_true, if_true, ite_true]
      refine noclose_if_of_inv (inv_grow hinv _ ?_) _ hnc
      show st.combined ≤ st.combined + 1000
      omega
    · simp only [hB, if_false, ite_false]
      refine noclose_if_of_inv (inv_grow hinv _ ?_) _ hnc
      show st.combined ≤ st.combined + dur f - fade
      have := hfade hB
      omega

theorem stitchStep_close (dur : FileName → Nat) (fade planLen : Nat)
    (st : StitchSt) (i : Nat) (f : FileName)
    (hfade : f ≠ pauseMark → fade ≤ dur f)
    (hc : i + 2 = planLen)
    (hinv : stitchInv st) :
    markersClosed (stitchStep dur fade planLen st i f) := by
  unfold stitchStep
  by_cases hA : isSubstr (chapterFile (st.chapter_idx + 1)) f
  · simp only [hA, ite_true]
    by_cases hB : f = pauseMark
    · simp only [hB, eq_self_iff_true, if_true, ite_true]
      refine close_if_of_inv (inv_grow (inv_transition hinv) _ ?_) rfl _ hc
      show st.combined ≤ st.combined + 1000
      omega
    · simp only [hB, if_false, ite_false]
      refine close_if_of_inv (inv_grow (inv_transition hinv) _ ?_) rfl _ hc
      show st.combined ≤ st.combined + dur f - fade
      have := hfade hB
      omega
  · simp only [hA, ite_false]
    by_cases hB : f = pauseMark
    · simp only [hB, eq_self_iff_true, if_true, ite_true]
      refine close_if_of_inv (inv_grow hinv _ ?_) rfl _ hc
      show st.combined ≤ st.combined + 1000
      omega
    · simp only [hB, if_false, ite_false]
      refine close_if_of_inv (inv_grow hinv _ ?_) rfl _ hc
      show st.combined ≤ st.combined + dur f - fade
      have := hfade hB
      omega

theorem stitchInit_inv (dur : FileName → Nat) (f : FileName) :
    stitchInv (stitchInit dur f) := by
  refine ⟨[], (if isSubstr (chapterFile 1) f then 1 else 0,
    { start_ms := 0, end_ms := none }), rfl, rfl, by simp, ?_, ?_, ?_, ?_⟩
  · exact List.chain'_singleton _
  · intro e hemem v hv
    simp at hemem
    rw [hemem] at hv
    simp at hv
  · simp
  · exact Nat.zero_le _

theorem stitchLoop_coverage (dur : FileName → Nat) (fade planLen : Nat) :
    ∀ (rest : List FileName) (i : Nat) (st : StitchSt),
      i + rest.length + 1 = planLen →
      (∀ g ∈ rest, g ≠ pauseMark → fade ≤ dur g) →
      rest ≠ [] →
      stitchInv st →
      markersClosed (stitchLoop dur fade planLen i rest st) := by
  intro rest
  induction rest with
  | nil => intro i st _ _ hne _; exact absurd rfl hne
  | cons f rest' ih =>
    intro i st hlen hfade _ hinv
    cases rest' with
    | nil =>
      unfold stitchLoop
      unfold stitchLoop
      refine stitchStep_close dur fade planLen st i f ?_ (by simp at hlen; omega) hinv
      intro hf
      exact hfade f (List.mem_cons_self _ _) hf
    | cons g rest'' =>
      unfold stitchLoop
      refine ih (i + 1) _ (by simp at hlen ⊢; omega) ?_ (by simp) ?_
      · intro x hx hxp
        exact hfade x (List.mem_cons_of_mem f hx) hxp
      · refine stitchStep_inv dur fade planLen st i f ?_ (by simp at hlen; omega) hinv
        intro hf
        exact hfade f (List.mem_cons_self _ _) hf

/-- Claim C5 as stated is false: a plan with a single item (for example a
directory holding only `title.wav`) leaves the single opened marker without
any `end_ms`, because the loop that closes the final marker iterates only
over `files_to_stitch[1:]` and never runs. -/
theorem stitch_marker_coverage_cex :
    ¬ markerCoverage (fun _ => 500) 0 "title.wav".data [] := by
  intro h
  obtain ⟨_, _, hlast, _⟩ := h
  have hm : (stitchFinal (fun _ => 500) 0 "title.wav".data []).markers =
      [(0, { start_ms := 0, end_ms := none })] := by decide
  have h2 := hlast (0, { start_ms := 0, end_ms := none }) (by rw [hm]; rfl)
  simp at h2

/-- Claim C5 (amended): for every assembly plan with at least two items
(`rest ≠ []`), provided the crossfade does not exceed any unit's duration,
the recorded chapter markers are contiguous and non-overlapping (consecutive
keys, each recorded `end_ms` equal to the next marker's `start_ms`), every
recorded `end_ms` is at least its marker's `start_ms`, and the marker open
when the last plan item is appended is closed with an `end_ms` equal to the
total duration of the assembled output. -/
theorem stitch_marker_coverage (dur : FileName → Nat) (fade : Nat)
    (f : FileName) (rest : List FileName) (hrest : rest ≠ [])
    (hfade : ∀ g ∈ rest, g ≠ pauseMark → fade ≤ dur g) :
    markerCoverage dur fade f rest := by
  unfold markerCoverage stitchFinal
  exact stitchLoop_coverage dur fade (rest.length + 1) rest 0 (stitchInit dur f)
    (by omega) hfade hrest (stitchInit_inv dur f)

/-- Witness for the amended C5: the scenario-B plan
`[PAUSE, chapter_1.wav, PAUSE, chunk_01_0000.wav]`. -/
theorem stitch_marker_coverage_witness :
    ([("chapter_1.wav".data : FileName), pauseMark, "chunk_01_0000.wav".data] ≠ []) ∧
    (∀ g ∈ [("chapter_1.wav".data : FileName), pauseMark, "chunk_01_0000.wav".data],
      g ≠ pauseMark → 100 ≤ (fun h => if h = "chapter_1.wav".data then 2000 else 3000) g) ∧
    markerCoverage (fun h => if h = "chapter_1.wav".data then 2000 else 3000) 100
      pauseMark ["chapter_1.wav".data, pauseMark, "chunk_01_0000.wav".data] :=
  ⟨by decide, by decide,
    stitch_marker_coverage _ 100 pauseMark
      ["chapter_1.wav".data, pauseMark, "chunk_01_0000.wav".data]
      (by decide) (by decide)⟩
